import Mathlib

/-!
Verification development for the herryqg/pdf-parser text-replacement core.

The definitions below are a shallow embedding of
  * `src/pdf_parser/core/cmap.py`      (CMap codec),
  * `src/pdf_parser/fonts/embedding.py` (CMap merge and serialization),
  * `src/pdf_parser/fonts/analysis.py`  (code-safety helper),
  * `src/pdf_parser/core/replacer.py`   (the replacement loop of `replace_text`).

Modelling conventions:
  * Python `dict` objects are insertion-ordered association lists with unique
    keys: assignment updates the value in place for an existing key and appends
    a new key at the end (CPython semantics).
  * Python `set` objects of small ints are lists with membership-guarded append.
  * Unicode characters and single-byte codes are `Nat` scalar/byte values;
    a CMap is a dict from byte code to Unicode scalar (its keys are produced
    as `bytes([i])` with `i <= 0xFF` in the source, so a plain byte value
    suffices).
  * Fallible Python code (`chr` raising `ValueError` on a scalar above
    0x10FFFF, `encode_pdf_string` raising on an unmapped character) is
    modelled with `Except Unit`.
-/

namespace PdfParser

/-- Association-list model of a Python `dict` (insertion ordered, unique keys). -/
abbrev Dict (α β : Type) := List (α × β)

/-- `m.get(k)` / `m[k]`: the value at the first (only) occurrence of `k`. -/
def dictGet {α β : Type} [DecidableEq α] : Dict α β → α → Option β
  | [], _ => none
  | (k', v) :: rest, k => if k = k' then some v else dictGet rest k

/-- `m[k] = v`: update in place if `k` is present, else append (CPython order). -/
def dictInsert {α β : Type} [DecidableEq α] : Dict α β → α → β → Dict α β
  | [], k, v => [(k, v)]
  | (k', v') :: rest, k, v =>
      if k = k' then (k, v) :: rest else (k', v') :: dictInsert rest k v

/-- `k in m` for a Python dict. -/
def dictContains {α β : Type} [DecidableEq α] (m : Dict α β) (k : α) : Bool :=
  (dictGet m k).isSome

/-- `s.add(x)` for a Python set modelled as a list. -/
def setAdd (l : List Nat) (x : Nat) : List Nat :=
  if x ∈ l then l else l ++ [x]

/-! ### Python primitives used by the codec: `str.splitlines`, `chr`, hex text -/

/-- The line-boundary characters recognised by Python `str.splitlines`. -/
def isLineBreak (c : Char) : Bool :=
  c.toNat = 0x0A || c.toNat = 0x0D || c.toNat = 0x0B || c.toNat = 0x0C ||
  c.toNat = 0x1C || c.toNat = 0x1D || c.toNat = 0x1E || c.toNat = 0x85 ||
  c.toNat = 0x2028 || c.toNat = 0x2029

/-- Worker for `pysplitlines`; `acc` holds the current line reversed and
`lastCR` records whether the previous character was a `\r` whose following
`\n` must be absorbed (a `\r\n` pair is one boundary in Python). -/
def pysplitlinesGo : List Char → List Char → Bool → List (List Char)
  | [], acc, _ => if acc.isEmpty then [] else [acc.reverse]
  | c :: rest, acc, lastCR =>
      if lastCR = true ∧ c.toNat = 0x0A then pysplitlinesGo rest acc false
      else if isLineBreak c then
        acc.reverse :: pysplitlinesGo rest [] (decide (c.toNat = 0x0D))
      else pysplitlinesGo rest (c :: acc) false

/-- Python `str.splitlines()`: a trailing break does not create an empty line. -/
def pysplitlines (l : List Char) : List (List Char) := pysplitlinesGo l [] false

/-- Python `chr(n)`: valid for scalar values below 0x110000, else `ValueError`. -/
def pychr (n : Nat) : Except Unit Nat :=
  if n < 0x110000 then .ok n else .error ()

/-- The character class `[0-9A-Fa-f]` of the CMap regexes. -/
def isHexDigitCh (c : Char) : Bool :=
  (0x30 ≤ c.toNat && c.toNat ≤ 0x39) || (0x41 ≤ c.toNat && c.toNat ≤ 0x46) ||
  (0x61 ≤ c.toNat && c.toNat ≤ 0x66)

/-- Value of one hex digit (0 for non-digits; callers only use it on digits). -/
def hexDigitVal (c : Char) : Nat :=
  if 0x30 ≤ c.toNat ∧ c.toNat ≤ 0x39 then c.toNat - 0x30
  else if 0x41 ≤ c.toNat ∧ c.toNat ≤ 0x46 then c.toNat - 0x41 + 10
  else if 0x61 ≤ c.toNat ∧ c.toNat ≤ 0x66 then c.toNat - 0x61 + 10
  else 0

/-- Python `int(s, 16)` on a digit string. -/
def hexVal (ds : List Char) : Nat := ds.foldl (fun a c => 16 * a + hexDigitVal c) 0

/-- The regex class `\s` of a Python `str` pattern: `[ \t\n\r\f\v]`, the
0x1C-0x1F separators, and every Unicode whitespace character (U+0085, U+00A0,
U+1680, U+2000-U+200A, U+2028, U+2029, U+202F, U+205F, U+3000). -/
def isPySpace (c : Char) : Bool :=
  (0x09 ≤ c.toNat && c.toNat ≤ 0x0D) || (0x1C ≤ c.toNat && c.toNat ≤ 0x20) ||
  c.toNat = 0x85 || c.toNat = 0xA0 || c.toNat = 0x1680 ||
  (0x2000 ≤ c.toNat && c.toNat ≤ 0x200A) || c.toNat = 0x2028 ||
  c.toNat = 0x2029 || c.toNat = 0x202F || c.toNat = 0x205F || c.toNat = 0x3000

/-! ### The two CMap regexes of `parse_cmap` (cmap.py lines 17 and 30)

`re.search` with pattern `<([0-9A-Fa-f]+)>\s*<([0-9A-Fa-f]+)>` (and the
three-group variant).  Because the character classes are disjoint from the
literals that follow them (`>` is not a hex digit, `<` is not whitespace),
greedy maximal-munch matching at a position is exact and `re.search` is the
leftmost position at which the deterministic match succeeds. -/

/-- Match `<([0-9A-Fa-f]+)>` at the head, returning the value and the rest. -/
def matchHexGroup : List Char → Option (Nat × List Char)
  | [] => none
  | c :: rest =>
      if c = '<' then
        if (rest.takeWhile isHexDigitCh).isEmpty then none
        else
          match rest.dropWhile isHexDigitCh with
          | [] => none
          | c' :: rest' =>
              if c' = '>' then some (hexVal (rest.takeWhile isHexDigitCh), rest') else none
      else none

/-- Skip `\s*`. -/
def skipSpaces (l : List Char) : List Char := l.dropWhile isPySpace

/-- Match the two-group (bfchar) pattern at the head of `l`. -/
def matchCharAt (l : List Char) : Option (Nat × Nat) :=
  match matchHexGroup l with
  | none => none
  | some (a, r) =>
      match matchHexGroup (skipSpaces r) with
      | none => none
      | some (b, _) => some (a, b)

/-- Match the three-group (bfrange) pattern at the head of `l`. -/
def matchRangeAt (l : List Char) : Option (Nat × Nat × Nat) :=
  match matchHexGroup l with
  | none => none
  | some (a, r) =>
      match matchHexGroup (skipSpaces r) with
      | none => none
      | some (b, r') =>
          match matchHexGroup (skipSpaces r') with
          | none => none
          | some (c, _) => some (a, b, c)

/-- `re.search` for the two-group pattern: leftmost match in the line. -/
def searchCharIn : List Char → Option (Nat × Nat)
  | [] => none
  | c :: rest =>
      match matchCharAt (c :: rest) with
      | some r => some r
      | none => searchCharIn rest

/-- `re.search` for the three-group pattern: leftmost match in the line. -/
def searchRangeIn : List Char → Option (Nat × Nat × Nat)
  | [] => none
  | c :: rest =>
      match matchRangeAt (c :: rest) with
      | some r => some r
      | none => searchRangeIn rest

/-! ### `parse_cmap` (cmap.py lines 4-40) -/

/-- The bfrange loop body: `for i in range(start, end + 1)`, skipping `i > 0xFF`
and calling `chr(target + (i - start))` otherwise.  The entries are returned as
a delta list; an invalid scalar aborts the whole parse (Python `ValueError`). -/
def rangeDelta (s e target : Nat) : Except Unit (List (Nat × Nat)) :=
  (List.range' s (e + 1 - s)).foldlM
    (fun acc i =>
      if i > 0xFF then .ok acc
      else (pychr (target + (i - s))).map (fun v => acc ++ [(i, v)]))
    []

/-- The entries contributed by one line of the CMap text: bfrange first,
then bfchar, then nothing (the line is dropped). -/
def lineDelta (line : List Char) : Except Unit (List (Nat × Nat)) :=
  match searchRangeIn line with
  | some (s, e, t) => rangeDelta s e t
  | none =>
      match searchCharIn line with
      | some (code, t) =>
          if code > 0xFF then .ok []
          else (pychr t).map (fun v => [(code, v)])
      | none => .ok []

/-- `parse_cmap` on the character list of the input string. -/
def parseCmapChars (s : List Char) : Except Unit (Dict Nat Nat) :=
  (pysplitlines s).foldlM
    (fun m line => (lineDelta line).map
      (fun es => es.foldl (fun m p => dictInsert m p.1 p.2) m))
    []

/-- `parse_cmap(cmap_str)`: byte code to Unicode scalar mapping. -/
def parse_cmap (s : String) : Except Unit (Dict Nat Nat) := parseCmapChars s.data

/-! ### `decode_pdf_string`, `encode_pdf_string`, `escape_pdf_string` -/

/-- `decode_pdf_string(pdf_bytes, cmap)` (cmap.py lines 43-54): each byte maps
through the CMap, unmapped bytes become `?` (0x3F). -/
def decode_pdf_string (pdfBytes : List Nat) (cmap : Dict Nat Nat) : List Nat :=
  pdfBytes.map (fun b => (dictGet cmap b).getD 0x3F)

/-- The inversion `{v: k for k, v in cmap.items()}` (cmap.py line 71 and
replacer.py line 536): iteration in insertion order, a later entry with the
same value overwrites an earlier one. -/
def invertCmap (m : Dict Nat Nat) : Dict Nat Nat :=
  m.foldl (fun r p => dictInsert r p.2 p.1) []

/-- The encoding loop of `encode_pdf_string`: each character maps through the
inverted CMap, an unmapped character raises `ValueError`. -/
def encodeGo (reverse : Dict Nat Nat) : List Nat → Except Unit (List Nat)
  | [] => .ok []
  | c :: rest =>
      match dictGet reverse c with
      | none => .error ()
      | some k => (encodeGo reverse rest).map (fun bs => k :: bs)

/-- `encode_pdf_string(unicode_text, cmap)` (cmap.py lines 57-77): raises
`ValueError` on a character absent from the inverted CMap. -/
def encode_pdf_string (text : List Nat) (cmap : Dict Nat Nat) :
    Except Unit (List Nat) :=
  encodeGo (invertCmap cmap) text

/-- The escape table of `escape_pdf_string` (cmap.py lines 80-104). -/
def escapeChar (c : Char) : List Char :=
  if c = '(' then ['\\', '(']
  else if c = ')' then ['\\', ')']
  else if c = '\\' then ['\\', '\\']
  else if c = '\r' then ['\\', 'r']
  else if c = '\n' then ['\\', 'n']
  else if c = '\t' then ['\\', 't']
  else if c.toNat = 0x08 then ['\\', 'b']
  else if c.toNat = 0x0C then ['\\', 'f']
  else [c]

/-- `escape_pdf_string(text)`. -/
def escape_pdf_string (text : List Char) : List Char :=
  text.foldl (fun r c => r ++ escapeChar c) []

/-! ### `update_pdf_font_mapping` (embedding.py): CMap merge and serialization -/

/-- The merge of embedding.py lines 96-104: `merged = original.copy()`, then
each new entry is added only when its key is absent (`if k not in merged`). -/
def merge_cmap (original newCmap : Dict Nat Nat) : Dict Nat Nat :=
  newCmap.foldl
    (fun merged p => if dictContains merged p.1 then merged else dictInsert merged p.1 p.2)
    original

/-- Decimal digit character (for Python `f"{n}"`; only applied below 10). -/
def decDigitChar (d : Nat) : Char :=
  match d with
  | 0 => '0' | 1 => '1' | 2 => '2' | 3 => '3' | 4 => '4'
  | 5 => '5' | 6 => '6' | 7 => '7' | 8 => '8' | 9 => '9'
  | _ => '0'

/-- Decimal digits of `n`, with structural fuel (`fuel ≥ n` suffices). -/
def decDigitsGo : Nat → Nat → List Char
  | 0, n => [decDigitChar n]
  | fuel + 1, n =>
      if n < 10 then [decDigitChar n]
      else decDigitsGo fuel (n / 10) ++ [decDigitChar (n % 10)]

/-- Decimal digits of `n` (Python `f"{n}"`). -/
def decDigits (n : Nat) : List Char := decDigitsGo n n

/-- Uppercase hex digit character (for Python `f"{n:X}"`; only applied below 16). -/
def hexDigitChar (d : Nat) : Char :=
  match d with
  | 0 => '0' | 1 => '1' | 2 => '2' | 3 => '3' | 4 => '4'
  | 5 => '5' | 6 => '6' | 7 => '7' | 8 => '8' | 9 => '9'
  | 10 => 'A' | 11 => 'B' | 12 => 'C' | 13 => 'D' | 14 => 'E' | 15 => 'F'
  | _ => '0'

/-- Uppercase hex digits of `n`, with structural fuel (`fuel ≥ n` suffices). -/
def hexDigitsGo : Nat → Nat → List Char
  | 0, n => [hexDigitChar n]
  | fuel + 1, n =>
      if n < 16 then [hexDigitChar n]
      else hexDigitsGo fuel (n / 16) ++ [hexDigitChar (n % 16)]

/-- Uppercase hex digits of `n`. -/
def hexDigits (n : Nat) : List Char := hexDigitsGo n n

/-- Python `f"{n:0wX}"`: uppercase hex, zero-padded on the left to width `w`. -/
def hexPad (w n : Nat) : List Char :=
  List.replicate (w - (hexDigits n).length) '0' ++ hexDigits n

/-- Stable insertion into a key-sorted list (for Python `sorted(m.items())`;
with unique keys the sorted result is determined by the key order alone). -/
def insEntry (p : Nat × Nat) : Dict Nat Nat → Dict Nat Nat
  | [] => [p]
  | q :: rest => if p.1 ≤ q.1 then p :: q :: rest else q :: insEntry p rest

/-- `sorted(merged_cmap.items())` (embedding.py line 124). -/
def sortEntries (m : Dict Nat Nat) : Dict Nat Nat := m.foldr insEntry []

/-- One bfchar entry line `f"<{k:02X}> <{v:04X}>"` (embedding.py line 128),
without its trailing newline. -/
def entryLine (p : Nat × Nat) : List Char :=
  '<' :: (hexPad 2 p.1 ++ '>' :: ' ' :: '<' :: (hexPad 4 p.2 ++ ['>']))

/-- The fixed CMap prologue written by embedding.py lines 116-122. -/
def cmapHeader : List Char :=
  ("/CIDInit /ProcSet findresource begin\n12 dict begin\nbegincmap\n/CIDSystemInfo << /Registry (Adobe) /Ordering (UCS) /Supplement 0 >> def\n/CMapName /Adobe-Identity-UCS def\n/CMapType 2 def\n1 begincodespacerange\n<00> <FF>\nendcodespacerange\n").data

/-- The fixed CMap epilogue written by embedding.py lines 129-130. -/
def cmapFooter : List Char :=
  ("endbfchar\nendcmap\nCMapName currentdict /CMap defineresource pop\nend\nend").data

/-- The ToUnicode CMap text written back by embedding.py lines 116-130:
prologue, `f"{len(sorted_cmap)} beginbfchar"`, one line per sorted entry,
epilogue. -/
def serializeCmap (m : Dict Nat Nat) : List Char :=
  cmapHeader ++ decDigits (sortEntries m).length ++ (" beginbfchar\n").data ++
    (sortEntries m).foldl (fun acc p => acc ++ entryLine p ++ ['\n']) [] ++
    cmapFooter

/-! ### `is_safe_code` (fonts/analysis.py lines 70-100) -/

/-- The `unsafe_ranges` table of `is_safe_code`. -/
def badCodeRanges : List (Nat × Nat) :=
  [(0x00, 0x1F), (0x20, 0x20), (0x22, 0x22), (0x27, 0x27), (0x28, 0x29),
   (0x2C, 0x2C), (0x2E, 0x2E), (0x3A, 0x3B), (0x3F, 0x3F), (0x5B, 0x5D),
   (0x7B, 0x7D)]

/-- `is_safe_code(code)`: `code` lies in none of the unsafe ranges. -/
def is_safe_code (code : Nat) : Bool :=
  badCodeRanges.all (fun r => decide (¬(r.1 ≤ code ∧ code ≤ r.2)))

/-! ### `replace_text` (core/replacer.py)

The page content stream is modelled after the tokenization performed by the
main regex of replacer.py line 471: a sequence of passthrough gap spans,
font-select operators, text-matrix operators, and show operators.  A show
operator carries its operand shape (`Tj` literal or `TJ` array) and the raw
operand text (the characters between the parentheses/brackets, i.e.
`text_match.group(1)`/`group(2)` of the source). -/

/-- One segment of the tokenized content stream. -/
inductive Seg where
  /-- Raw bytes between salient operators (copied verbatim). -/
  | raw (s : List Char)
  /-- `/NAME SIZE Tf`. -/
  | tf (font : String)
  /-- `a b c d e f Tm` (matched by the main loop, never rewritten). -/
  | tm (s : List Char)
  /-- `( inner ) Tj` (`isTJ = false`) or `[ inner ] TJ` (`isTJ = true`). -/
  | showOp (isTJ : Bool) (inner : List Char)
deriving DecidableEq, Repr

/-- The arguments of one `replace_text` call that the loop consults. -/
structure Cfg where
  target : List Nat
  replacement : List Nat
  /-- `instance_index`; `-1` means rewrite all instances. -/
  instanceIndex : Int
  allowAutoInsert : Bool
deriving DecidableEq, Repr

/-- The per-document derived state consumed by the replacement loop:
`font_cmaps`, `all_char_codes`, `all_used_codes`, `all_pdf_chars` (built from
the whole document by replacer.py lines 104-222) and `font_encoding_maps`
(domains of the `/Differences` arrays, lines 308-312). -/
structure RState where
  fontCmaps : Dict String (Dict Nat Nat)
  allCharCodes : Dict String (Dict Nat (List Nat))
  allUsedCodes : Dict String (List Nat)
  allPdfChars : Dict String (List Nat)
  fontEncodingMaps : Dict String (List Nat)
deriving DecidableEq, Repr

/-- `inner_text.replace('\\', '')` (replacer.py line 488). -/
def stripBackslashes (l : List Char) : List Char := l.filter (fun c => c ≠ '\\')

/-- Decode the operand of a show operator the way the loop does it
(strip backslashes, latin-1 encode, `decode_pdf_string`). -/
def decodeInner (inner : List Char) (cmap : Dict Nat Nat) : List Nat :=
  decode_pdf_string ((stripBackslashes inner).map Char.toNat) cmap

/-- `" \t\n\r"` membership for a scalar (replacer.py lines 425 and 553). -/
def isWsScalar (c : Nat) : Bool := c = 0x20 || c = 0x09 || c = 0x0A || c = 0x0D

/-- The acceptance condition of the primary allocation scan (replacer.py
lines 701-714): the candidate is in neither used-code set, lies in no font's
`/Differences` encoding map, and passes `is_safe_code`. -/
def allocQualifies (used already : List Nat) (encMaps : Dict String (List Nat))
    (c : Nat) : Bool :=
  !(decide (c ∈ used) || decide (c ∈ already)) &&
  (encMaps.all (fun f => decide (c ∉ f.2)) && is_safe_code c)

/-- The primary allocation scan of replacer.py lines 701-724: the first
qualifying candidate in `range(0xB0, 0x100)`. -/
def findSafeCodePrimary (used already : List Nat)
    (encMaps : Dict String (List Nat)) : Option Nat :=
  (List.range' 0xB0 0x50).find? (allocQualifies used already encMaps)

/-- The extended-range scan of replacer.py lines 728-743: candidates
`range(0x100, 0x110)` masked by `& 0xFF` (so effectively bytes 0x00-0x0F),
taking the first whose byte is not yet a key of the font's CMap.
(`c % 256` equals `c & 0xFF` on naturals.) -/
def findExtendedCode (cmap : Dict Nat Nat) : Option Nat :=
  ((List.range' 0x100 0x10).find? (fun c => !dictContains cmap (c % 256))).map
    (fun c => c % 256)

/-- The mutable state of one match's character loop (replacer.py lines
534-593 set it up; lines 596-752 mutate it). `cmap` aliases
`font_cmaps[current_font]`, `already` aliases `all_used_codes[current_font]`
when that key exists (`alreadyPresent`). `extra` collects the copies of the
original segment appended to `new_segments` from inside the loop. -/
structure MState where
  cmap : Dict Nat Nat
  used : List Nat
  already : List Nat
  newCodes : List Nat
  allocated : Dict Nat Nat
  extra : List Seg
  modified : Bool
  broke : Bool
deriving DecidableEq, Repr

/-- One iteration of `for char in replacement_text` (replacer.py lines
596-752) for character `c`.  `charToCode` is the inversion computed once at
line 536 (never refreshed), `charCodes` is `all_char_codes.get(current_font, {})`. -/
def charStep (st : RState) (allow : Bool) (seg : Seg)
    (charToCode : Dict Nat Nat) (charCodes : Dict Nat (List Nat))
    (ms : MState) (c : Nat) : MState :=
  if ms.broke then ms
  else
    let isIn := dictContains charCodes c
    -- lines 599-631: warnings, and the auto-insert-disabled break
    if !isIn && !allow then { ms with extra := ms.extra ++ [seg], broke := true }
    else
      -- lines 634-652: code resolution
      if isIn then
        match dictGet charCodes c with
        | some (k :: _) =>
            { ms with newCodes := ms.newCodes ++ [k],
                      allocated := dictInsert ms.allocated c k }
        | _ => ms   -- `if codes:` false: code stays None, nothing appended
      else
        match dictGet charToCode c with
        | some k =>
            { ms with newCodes := ms.newCodes ++ [k],
                      allocated := dictInsert ms.allocated c k }
        | none =>
          -- line 648 `if not allow_auto_insert` is unreachable here (the
          -- break above already fired), so `allow` is true on this path
          -- lines 655-692: look for the character in another font
          let foundOther := st.allPdfChars.any (fun f =>
            decide (c ∈ f.2) && dictContains ((dictGet st.allCharCodes f.1).getD []) c)
          if foundOther then
            -- line 690: append the original segment, `continue` the char loop
            { ms with extra := ms.extra ++ [seg] }
          else
            -- lines 694-748: allocate a fresh code
            match findSafeCodePrimary ms.used ms.already st.fontEncodingMaps with
            | some k =>
                { ms with cmap := dictInsert ms.cmap k c,
                          used := setAdd ms.used k,
                          already := setAdd ms.already k,
                          newCodes := ms.newCodes ++ [k],
                          allocated := dictInsert ms.allocated c k,
                          modified := true }
            | none =>
              match findExtendedCode ms.cmap with
              | some k =>
                  { ms with cmap := dictInsert ms.cmap k c,
                            newCodes := ms.newCodes ++ [k],
                            allocated := dictInsert ms.allocated c k,
                            modified := true }
              | none => ms   -- line 748: skip this character

/-- The running state of the main replacement loop (replacer.py lines 364-374
initialise it). -/
structure LState where
  st : RState
  font : Option String
  counter : Nat
  changed : Bool
  modifiedFonts : List String
  out : List Seg
deriving DecidableEq, Repr

/-- Char.ofNat for a byte value (latin-1 decoding of one byte). -/
def chr8 (n : Nat) : Char := Char.ofNat n

/-- Processing of one matched show operator (replacer.py lines 492-803) once
the instance check has selected it. -/
def processMatch (cfg : Cfg) (ls : LState) (f : String) (cmap : Dict Nat Nat)
    (isTJ : Bool) (seg : Seg) : LState :=
  -- lines 534-541
  let used := cmap.map Prod.fst
  let charToCode := invertCmap cmap
  let alreadyPresent := (dictGet ls.st.allUsedCodes f).isSome
  let already := (dictGet ls.st.allUsedCodes f).getD []
  let charCodes := (dictGet ls.st.allCharCodes f).getD []
  -- lines 544-560: the pre-check collects unsupported chars only when
  -- auto-insert is disabled
  let unsupported :=
    if cfg.allowAutoInsert then []
    else cfg.replacement.filter (fun c => !(dictContains charCodes c || isWsScalar c))
  -- line 563
  if !unsupported.isEmpty && !cfg.allowAutoInsert then
    { ls with out := ls.out ++ [seg] }
  else
    -- lines 592-752: the character loop
    let ms0 : MState :=
      { cmap := cmap, used := used, already := already, newCodes := [],
        allocated := [], extra := [], modified := false, broke := false }
    let ms := cfg.replacement.foldl (charStep ls.st cfg.allowAutoInsert seg charToCode charCodes) ms0
    -- the in-place mutations of `existing_cmap` and `already_used_codes`
    -- are visible through `font_cmaps` / `all_used_codes`
    let st' : RState :=
      { ls.st with
        fontCmaps := dictInsert ls.st.fontCmaps f ms.cmap,
        allUsedCodes :=
          if alreadyPresent then dictInsert ls.st.allUsedCodes f ms.already
          else ls.st.allUsedCodes }
    let modifiedFonts' :=
      if ms.modified then (if f ∈ ls.modifiedFonts then ls.modifiedFonts else ls.modifiedFonts ++ [f])
      else ls.modifiedFonts
    let outMid := ls.out ++ ms.extra
    -- line 754: `if not new_codes`
    if ms.newCodes.isEmpty then
      { ls with st := st', modifiedFonts := modifiedFonts', out := outMid ++ [seg] }
    -- lines 765-772: the partial check, only with auto-insert disabled
    else if !cfg.allowAutoInsert && ms.newCodes.length < cfg.replacement.length &&
        cfg.replacement.any (fun c => !dictContains ms.allocated c) then
      { ls with st := st', modifiedFonts := modifiedFonts', out := outMid ++ [seg] }
    else
      -- lines 790-803: commit the rewritten operator
      let newInner := escape_pdf_string (ms.newCodes.map chr8)
      { ls with st := st', modifiedFonts := modifiedFonts',
                out := outMid ++ [Seg.showOp isTJ newInner], changed := true }

/-- One iteration of the main loop (replacer.py lines 471-808). -/
def processSeg (cfg : Cfg) (ls : LState) (seg : Seg) : LState :=
  match seg with
  | .raw _ => { ls with out := ls.out ++ [seg] }
  | .tm _ => { ls with out := ls.out ++ [seg] }
  | .tf f => { ls with font := some f, out := ls.out ++ [seg] }
  | .showOp isTJ inner =>
    match ls.font with
    | none => { ls with out := ls.out ++ [seg] }
    | some f =>
      match dictGet ls.st.fontCmaps f with
      | none => { ls with out := ls.out ++ [seg] }
      | some cmap =>
        let decoded := decodeInner inner cmap
        if decoded = cfg.target then
          -- lines 494-501: instance selection
          if 0 ≤ cfg.instanceIndex ∧ (ls.counter : Int) ≠ cfg.instanceIndex then
            { ls with counter := ls.counter + 1, out := ls.out ++ [seg] }
          else
            let ls' :=
              if 0 ≤ cfg.instanceIndex then { ls with counter := ls.counter + 1 } else ls
            processMatch cfg ls' f cmap isTJ seg
        else { ls with out := ls.out ++ [seg] }

/-- The main loop over all segments. -/
def processSegs (cfg : Cfg) (segs : List Seg) (ls : LState) : LState :=
  segs.foldl (processSeg cfg) ls

/-- The `all_texts` collection pass (replacer.py lines 338-361).  Its
`if match.start() > current_pos: current_pos = match.end(); continue` guard
skips every salient operator that is preceded by a nonempty gap, and the
text-matrix operator is not part of this pass's regex, so a `Tm` acts as gap
text here. -/
def pass1 (st : RState) : List Seg → Option String → Bool → List (String × List Nat)
  | [], _, _ => []
  | .raw s :: rest, font, gap => pass1 st rest font (gap || !s.isEmpty)
  | .tm _ :: rest, font, _ => pass1 st rest font true
  | .tf f :: rest, font, gap =>
      if gap then pass1 st rest font false
      else pass1 st rest (some f) false
  | .showOp _ inner :: rest, font, gap =>
      if gap then pass1 st rest font false
      else
        match font with
        | some f =>
          match dictGet st.fontCmaps f with
          | some cmap => (f, decodeInner inner cmap) :: pass1 st rest (some f) false
          | none => pass1 st rest (some f) false
        | none => pass1 st rest font false

/-- The global pre-check of replacer.py lines 376-437: the characters of the
replacement unsupported by the font of the first `all_texts` entry whose text
equals the target (falling back to all fonts' characters when that font is
unknown). -/
def globalUnsupported (cfg : Cfg) (st : RState) (segs : List Seg) : List Nat :=
  let texts := pass1 st segs none false
  let targetFont :=
    (texts.find? (fun (p : String × List Nat) => decide (p.2 = cfg.target))).map Prod.fst
  let chars :=
    match targetFont with
    | some f =>
      match dictGet st.allPdfChars f with
      | some cs => cs
      | none => st.allPdfChars.foldl (fun acc (p : String × List Nat) => acc ++ p.2) []
    | none => st.allPdfChars.foldl (fun acc (p : String × List Nat) => acc ++ p.2) []
  let supported := fun (c : Nat) =>
    decide (c ∈ chars) || isWsScalar c ||
      (match targetFont with
       | some f =>
         match dictGet st.fontCmaps f with
         | some cm => (dictGet (invertCmap cm) c).isSome
         | none => false
       | none => false)
  cfg.replacement.filter (fun c => !supported c)

/-- The modelled `replace_text` operation on one page: arguments, derived
document state, and the tokenized page content.  Returns the success flag,
the (possibly rewritten) content stream, and the final derived state.  The
early-rejection paths (identical texts, line 93; unsupported characters with
auto-insert disabled, line 440) leave the document untouched. -/
def replace_text_model (cfg : Cfg) (st : RState) (segs : List Seg) :
    Bool × List Seg × RState :=
  if cfg.target = cfg.replacement then (false, segs, st)
  else if !(globalUnsupported cfg st segs).isEmpty && !cfg.allowAutoInsert then
    (false, segs, st)
  else
    let ls := processSegs cfg segs
      { st := st, font := none, counter := 0, changed := false,
        modifiedFonts := [], out := [] }
    (ls.changed, ls.out, ls.st)

/-- Whether one line of a CMap parses without raising (its matched target
scalars, if any, are all valid). -/
def lineDeltaOk (line : List Char) : Bool :=
  match lineDelta line with
  | .ok _ => true
  | .error _ => false

/-! ## C1: the Replacer can commit a partial rewrite

Failing input 1 (`allow_auto_insert = True`): font `/F1` draws the target
"X"; the replacement "ab" has `a` available in `/F1` and `b` available only
in `/F2`.  The cross-font branch of replacer.py line 690 appends the original
segment and `continue`s the character loop, after which the commit at lines
790-803 still fires: the output contains the original operator *and* a
rewritten operator that decodes to "a", not "ab".

Failing input 2 (`allow_auto_insert = False`): the replacement "a " has a
space that the font never draws.  The pre-check treats whitespace as
supported, the character loop then appends the original segment and breaks
(line 621-623), and the post-loop guard appends the original segment a second
time: the match's surroundings are not left untouched (the operator is
duplicated). -/

/-- Document state for C1, failing input 1. -/
def c1State : RState :=
  { fontCmaps := [("/F1", [(0x41, 0x61), (0x01, 0x58)]), ("/F2", [(0x42, 0x62)])],
    allCharCodes := [("/F1", [(0x61, [0x41]), (0x58, [0x01])]), ("/F2", [(0x62, [0x42])])],
    allUsedCodes := [("/F1", [0x41, 0x01]), ("/F2", [0x42])],
    allPdfChars := [("/F1", [0x61, 0x58]), ("/F2", [0x62])],
    fontEncodingMaps := [] }

/-- Arguments for C1, failing input 1: replace "X" by "ab", auto-insert on. -/
def c1Cfg : Cfg :=
  { target := [0x58], replacement := [0x61, 0x62], instanceIndex := -1,
    allowAutoInsert := true }

/-- Page content for C1: one text run drawing "X" under `/F1`. -/
def c1Segs : List Seg := [.tf "/F1", .showOp false [Char.ofNat 0x01]]

/-- Document state for C1, failing input 2. -/
def c1StateB : RState :=
  { fontCmaps := [("/F1", [(0x41, 0x61), (0x42, 0x62)])],
    allCharCodes := [("/F1", [(0x61, [0x41]), (0x62, [0x42])])],
    allUsedCodes := [("/F1", [0x41, 0x42])],
    allPdfChars := [("/F1", [0x61, 0x62])],
    fontEncodingMaps := [] }

/-- Arguments for C1, failing input 2: replace "a" by "a ", auto-insert off. -/
def c1CfgB : Cfg :=
  { target := [0x61], replacement := [0x61, 0x20], instanceIndex := -1,
    allowAutoInsert := false }

/-- Page content for C1, failing input 2. -/
def c1SegsB : List Seg := [.tf "/F1", .showOp false [Char.ofNat 0x41]]

/-! ### Specification-side views of the main loop (for the instance-selection
property): the matches of the target on the page, their fonts, and the
expected rewritten stream when every replacement character resolves by reuse. -/

/-- The font in effect after a segment. -/
def nextFont (font : Option String) : Seg → Option String
  | .tf f => some f
  | _ => font

/-- Whether a segment is a match of the target in the main loop: a show
operator whose current font has a CMap and whose decoded operand equals the
target. -/
def segMatches (st : RState) (target : List Nat) (font : Option String) : Seg → Bool
  | .showOp _ inner =>
    (match font with
     | some f =>
       match dictGet st.fontCmaps f with
       | some cmap => decide (decodeInner inner cmap = target)
       | none => false
     | none => false)
  | _ => false

/-- The number of matches of the target in the segment list. -/
def numMatches (st : RState) (target : List Nat) : List Seg → Option String → Nat
  | [], _ => 0
  | seg :: rest, font =>
      (if segMatches st target font seg then 1 else 0) +
        numMatches st target rest (nextFont font seg)

/-- The fonts of all matches, in discovery order. -/
def matchFonts (st : RState) (target : List Nat) : List Seg → Option String → List String
  | [], _ => []
  | seg :: rest, font =>
      (if segMatches st target font seg then font.toList else []) ++
        matchFonts st target rest (nextFont font seg)

/-- The codes chosen by the reuse path for each replacement character: the
first observed code for that character in the font's catalogue. -/
def reuseCodes (st : RState) (f : String) (rep : List Nat) : List Nat :=
  rep.map (fun c => ((dictGet ((dictGet st.allCharCodes f).getD []) c).getD []).headD 0)

/-- The rewritten operator produced for a selected match whose characters all
resolve by reuse. -/
def rewriteOf (st : RState) (f : String) (rep : List Nat) (isTJ : Bool) : Seg :=
  .showOp isTJ (escape_pdf_string ((reuseCodes st f rep).map chr8))

/-- The expected output stream: matches are numbered 0, 1, 2, … in discovery
order; a match is rewritten exactly when no instance index is given or its
number equals the instance index; everything else passes through. -/
def expectedOut (st : RState) (cfg : Cfg) : List Seg → Option String → Nat → List Seg
  | [], _, _ => []
  | seg :: rest, font, c =>
      if segMatches st cfg.target font seg then
        (if cfg.instanceIndex < 0 ∨ (c : Int) = cfg.instanceIndex then
          (match seg, font with
           | .showOp isTJ _, some f => rewriteOf st f cfg.replacement isTJ
           | _, _ => seg)
         else seg) :: expectedOut st cfg rest (nextFont font seg) (c + 1)
      else seg :: expectedOut st cfg rest (nextFont font seg) c

/-- Whether some match among `n` matches numbered `c0, c0+1, …` is selected
by instance index `idx` (every match when `idx < 0`). -/
def anySel (idx : Int) (c0 n : Nat) : Bool :=
  if 0 ≤ idx then decide ((c0 : Int) ≤ idx ∧ idx < (c0 : Int) + n)
  else decide (0 < n)

/-- Document state for the C9 witness: one font with "a" and "b" available. -/
def c9State : RState :=
  { fontCmaps := [("/F1", [(0x41, 0x61), (0x42, 0x62)])],
    allCharCodes := [("/F1", [(0x61, [0x41]), (0x62, [0x42])])],
    allUsedCodes := [("/F1", [0x41, 0x42])],
    allPdfChars := [("/F1", [0x61, 0x62])],
    fontEncodingMaps := [] }

/-- Arguments for the C9 witness: replace instance 1 of "a" by "b". -/
def c9Cfg : Cfg :=
  { target := [0x61], replacement := [0x62], instanceIndex := 1,
    allowAutoInsert := false }

/-- Page content for the C9 witness: two matches of "a" separated by a gap. -/
def c9Segs : List Seg :=
  [.tf "/F1", .showOp false [Char.ofNat 0x41], .raw (" foo ".data),
   .showOp true [Char.ofNat 0x41]]

/-! ### Line-level view of the serialized CMap (for the round-trip property) -/

/-- The prologue written by embedding.py lines 116-122, as its nine lines. -/
def cmapHeaderLines : List (List Char) :=
  [("/CIDInit /ProcSet findresource begin").data,
   ("12 dict begin").data,
   ("begincmap").data,
   ("/CIDSystemInfo << /Registry (Adobe) /Ordering (UCS) /Supplement 0 >> def").data,
   ("/CMapName /Adobe-Identity-UCS def").data,
   ("/CMapType 2 def").data,
   ("1 begincodespacerange").data,
   ("<00> <FF>").data,
   ("endcodespacerange").data]

/-- The serialized CMap as a list of newline-terminated lines followed by the
final (unterminated) `end`. -/
def serLines (m : Dict Nat Nat) : List (List Char) :=
  cmapHeaderLines ++
  [decDigits (sortEntries m).length ++ (" beginbfchar").data] ++
  (sortEntries m).map entryLine ++
  [("endbfchar").data, ("endcmap").data,
   ("CMapName currentdict /CMap defineresource pop").data, ("end").data]

/-- The parser's fold over a list of lines (the body of `parse_cmap`). -/
def parseLinesF (lines : List (List Char)) (acc : Dict Nat Nat) :
    Except Unit (Dict Nat Nat) :=
  lines.foldlM
    (fun m line => (lineDelta line).map
      (fun es => es.foldl (fun m p => dictInsert m p.1 p.2) m)) acc

/-! ## Basic dictionary lemmas -/

theorem dictGet_insert {α β : Type} [DecidableEq α] (m : Dict α β) (k k' : α) (v : β) :
    dictGet (dictInsert m k v) k' = if k' = k then some v else dictGet m k' := by
  induction m with
  | nil =>
    by_cases h : k' = k <;> simp [dictInsert, dictGet, h]
  | cons p rest ih =>
    obtain ⟨k₀, v₀⟩ := p
    by_cases hk : k = k₀
    · subst hk
      by_cases h' : k' = k <;> simp [dictInsert, dictGet, h']
    · by_cases h' : k' = k₀
      · subst h'
        have : ¬k' = k := fun h => hk (h ▸ rfl)
        simp [dictInsert, hk, dictGet, this]
      · simp [dictInsert, hk, dictGet, h', ih]

theorem dictGet_of_mem {α β : Type} [DecidableEq α] (m : Dict α β) (k : α) (v : β)
    (hmem : (k, v) ∈ m) (hnodup : (m.map Prod.fst).Nodup) :
    dictGet m k = some v := by
  induction m with
  | nil => cases hmem
  | cons p rest ih =>
    obtain ⟨k₀, v₀⟩ := p
    rcases List.mem_cons.mp hmem with h | h
    · cases h; simp [dictGet]
    · have hk : k ≠ k₀ := by
        rintro rfl
        have : k ∈ rest.map Prod.fst := List.mem_map.mpr ⟨(k, v), h, rfl⟩
        simp_all
      simp only [dictGet, if_neg hk]
      exact ih h (by simpa using hnodup.of_cons)

theorem mem_of_dictGet {α β : Type} [DecidableEq α] (m : Dict α β) (k : α) (v : β)
    (h : dictGet m k = some v) : (k, v) ∈ m := by
  induction m with
  | nil => simp [dictGet] at h
  | cons p rest ih =>
    obtain ⟨k₀, v₀⟩ := p
    by_cases hk : k = k₀
    · subst hk
      simp [dictGet] at h
      subst h; exact List.mem_cons_self _ _
    · simp only [dictGet, if_neg hk] at h
      exact List.mem_cons_of_mem _ (ih h)

/-! ## C8: identical target and replacement are rejected at input -/

/-- **C8.** For every document state, page content, instance index and
auto-insert flag, calling `replace_text` with `target_text == replacement_text`
fails immediately (replacer.py lines 93-95): the result is `False` and both
the content stream and the derived font state are returned unmodified. -/
theorem replace_text_same_text_rejected (t : List Nat) (idx : Int) (allow : Bool)
    (st : RState) (segs : List Seg) :
    replace_text_model
      { target := t, replacement := t, instanceIndex := idx, allowAutoInsert := allow }
      st segs = (false, segs, st) := by
  simp [replace_text_model]

/-! ## C10: decode_pdf_string is total and byte-for-scalar -/

/-- **C10.** `decode_pdf_string` is total: for every byte string and CMap the
result has exactly one Unicode scalar per input byte, and the `i`-th output
scalar is the CMap image of the `i`-th input byte (`?` = 0x3F when the byte is
unmapped). -/
theorem decode_pdf_string_pointwise (bs : List Nat) (cmap : Dict Nat Nat) :
    (decode_pdf_string bs cmap).length = bs.length ∧
    ∀ i (h : i < bs.length) (h' : i < (decode_pdf_string bs cmap).length),
      (decode_pdf_string bs cmap).get ⟨i, h'⟩ =
        (dictGet cmap (bs.get ⟨i, h⟩)).getD 0x3F := by
  refine ⟨by simp [decode_pdf_string], ?_⟩
  intro i h h'
  simp [decode_pdf_string]

/-- Witness for C10 at a concrete input: byte 0x99 is unmapped and decodes to
`?` in position 1. -/
theorem decode_pdf_string_pointwise_witness :
    (1 < [0x41, 0x99].length) ∧
    (decode_pdf_string [0x41, 0x99] [(0x41, 0x61)]).get ⟨1, by decide⟩ =
      (dictGet [(0x41, 0x61)] ([0x41, 0x99].get ⟨1, by decide⟩)).getD 0x3F :=
  ⟨by decide, (decode_pdf_string_pointwise [0x41, 0x99] [(0x41, 0x61)]).2 1 (by decide) (by decide)⟩

/-! ## C3: the merged CMap never loses or overwrites an original entry -/

theorem merge_keeps_acc (newCmap : Dict Nat Nat) :
    ∀ (acc : Dict Nat Nat) (k : Nat) (v : Nat), dictGet acc k = some v →
      dictGet (newCmap.foldl
        (fun merged p => if dictContains merged p.1 then merged else dictInsert merged p.1 p.2)
        acc) k = some v := by
  induction newCmap with
  | nil => intro acc k v h; simpa using h
  | cons p rest ih =>
    intro acc k v h
    simp only [List.foldl_cons]
    apply ih
    by_cases hc : dictContains acc p.1
    · simpa [hc] using h
    · have hk : k ≠ p.1 := by
        rintro rfl
        simp [dictContains, h] at hc
      simp [hc, dictGet_insert, hk, h]

/-- **C3.** The merged CMap written back by `update_pdf_font_mapping`
(embedding.py lines 96-104) keeps every entry of the font's original CMap
unchanged, and on codes absent from the original it takes exactly the new
mapping's entries: merging never overwrites. -/
theorem merge_cmap_preserves_original (original newCmap : Dict Nat Nat) :
    (∀ k v, dictGet original k = some v →
        dictGet (merge_cmap original newCmap) k = some v) ∧
    (∀ k, dictGet original k = none →
        dictGet (merge_cmap original newCmap) k = dictGet newCmap k) := by
  constructor
  · intro k v h
    exact merge_keeps_acc newCmap original k v h
  · intro k h
    induction newCmap generalizing original with
    | nil => simpa [merge_cmap, dictGet] using h
    | cons p rest ih =>
      simp only [merge_cmap, List.foldl_cons] at *
      by_cases hk : k = p.1
      · subst hk
        have hc : dictContains original p.1 = false := by simp [dictContains, h]
        simp only [hc, Bool.false_eq_true, if_false]
        have : dictGet (dictInsert original p.1 p.2) p.1 = some p.2 := by
          simp [dictGet_insert]
        have := merge_keeps_acc rest (dictInsert original p.1 p.2) p.1 p.2 this
        simp only [merge_cmap] at *
        simp [this, dictGet]
      · have hstep : dictGet (if dictContains original p.1 then original
            else dictInsert original p.1 p.2) k = none := by
          by_cases hc : dictContains original p.1
          · simp [hc, h]
          · simp [hc, dictGet_insert, hk, h]
        have := ih _ hstep
        simp only [merge_cmap] at this
        simp [this, dictGet, hk]

/-- Witness for C3 at a concrete input: the original entry `1 → 10` survives a
new mapping that tries to overwrite it, and the fresh code `2` is added. -/
theorem merge_cmap_preserves_original_witness :
    dictGet (merge_cmap [(1, 10)] [(1, 99), (2, 20)]) 1 = some 10 ∧
    dictGet (merge_cmap [(1, 10)] [(1, 99), (2, 20)]) 2 = dictGet [(1, 99), (2, 20)] 2 :=
  ⟨(merge_cmap_preserves_original [(1, 10)] [(1, 99), (2, 20)]).1 1 10 (by decide),
   (merge_cmap_preserves_original [(1, 10)] [(1, 99), (2, 20)]).2 2 (by decide)⟩

/-! ## C6: CMap inversion is last-writer-wins, not lowest-code -/

theorem invert_fold_last (m : Dict Nat Nat) :
    ∀ (r : Dict Nat Nat) (s : Nat),
      dictGet (m.foldl (fun r p => dictInsert r p.2 p.1) r) s =
        match m.reverse.find? (fun p => decide (p.2 = s)) with
        | some p => some p.1
        | none => dictGet r s := by
  induction m with
  | nil => intro r s; simp
  | cons p rest ih =>
    intro r s
    simp only [List.foldl_cons, List.reverse_cons]
    rw [ih, List.find?_append]
    cases hfind : rest.reverse.find? (fun p => decide (p.2 = s)) with
    | some q => simp [hfind, Option.orElse]
    | none =>
      by_cases hs : p.2 = s
      · simp [hfind, Option.orElse, hs, dictGet_insert]
      · simp [hfind, Option.orElse, hs, dictGet_insert, Ne.symm hs]

/-- Counterexample to C6 as stated: with two codes 0x41 < 0x42 both mapped to
the scalar 0x5A, the derived inversion picks 0x42 (the last-inserted code),
not the lowest code 0x41, and reversing the insertion order changes the
result. -/
theorem invert_cmap_not_lowest_counterexample :
    dictGet (invertCmap [(0x41, 0x5A), (0x42, 0x5A)]) 0x5A = some 0x42 ∧
    (0x42 : Nat) ≠ 0x41 ∧
    dictGet (invertCmap [(0x42, 0x5A), (0x41, 0x5A)]) 0x5A = some 0x41 := by
  decide

/-- **C6 (amended).** The unicode-to-code inversion built by
`encode_pdf_string` (cmap.py line 71) and by the replacement loop
(replacer.py line 536) maps a scalar to the code of the *last* entry of the
mapping (in insertion/iteration order) carrying that scalar — the highest
code for a CMap stored in ascending code order — rather than the lowest code. -/
theorem invert_cmap_last_writer_wins (m : Dict Nat Nat) (s : Nat) :
    dictGet (invertCmap m) s =
      (m.reverse.find? (fun p => decide (p.2 = s))).map Prod.fst := by
  have := invert_fold_last m [] s
  simp only [invertCmap, this]
  cases m.reverse.find? (fun p => decide (p.2 = s)) <;> simp [dictGet]

/-! ## C5: decode after encode restores the text -/

theorem invert_mem (m : Dict Nat Nat) (s k : Nat)
    (h : dictGet (invertCmap m) s = some k) : (k, s) ∈ m := by
  rw [invert_cmap_last_writer_wins] at h
  cases hfind : m.reverse.find? (fun p => decide (p.2 = s)) with
  | none => simp [hfind] at h
  | some q =>
    simp only [hfind, Option.map_some'] at h
    have hq := List.find?_some hfind
    have hmem := List.mem_reverse.mp (List.mem_of_find?_eq_some hfind)
    have : q.2 = s := by simpa using hq
    obtain ⟨q1, q2⟩ := q
    simp_all

/-- **C5.** Whenever every scalar of `s` lies in the inverted CMap (and the
CMap has no duplicate byte codes, as a parsed Python dict always has),
encoding succeeds and decoding the encoded bytes restores `s` exactly:
`decode_pdf_string(encode_pdf_string(s, cmap), cmap) = s`. -/
theorem decode_encode_roundtrip (cmap : Dict Nat Nat) (s : List Nat)
    (hnodup : (cmap.map Prod.fst).Nodup)
    (hs : ∀ c ∈ s, (dictGet (invertCmap cmap) c).isSome) :
    ∃ es, encode_pdf_string s cmap = .ok es ∧ decode_pdf_string es cmap = s := by
  induction s with
  | nil => exact ⟨[], rfl, rfl⟩
  | cons c rest ih =>
    have hc := hs c (List.mem_cons_self _ _)
    obtain ⟨k, hk⟩ := Option.isSome_iff_exists.mp hc
    obtain ⟨es, hes, hdec⟩ := ih (fun c hc => hs c (List.mem_cons_of_mem _ hc))
    refine ⟨k :: es, ?_, ?_⟩
    · simp only [encode_pdf_string, encodeGo, hk]
      simp only [encode_pdf_string] at hes
      simp [hes, Except.map]
    · have hmem : (k, c) ∈ cmap := invert_mem cmap c k hk
      have hget : dictGet cmap k = some c := dictGet_of_mem cmap k c hmem hnodup
      simp [decode_pdf_string, hget] at hdec ⊢
      exact hdec

/-- Witness for C5 at a concrete input. -/
theorem decode_encode_roundtrip_witness :
    ((([(0x41, 0x61)] : Dict Nat Nat).map Prod.fst).Nodup ∧
      ∀ c ∈ [0x61, 0x61], (dictGet (invertCmap [(0x41, 0x61)]) c).isSome) ∧
    ∃ es, encode_pdf_string [0x61, 0x61] [(0x41, 0x61)] = .ok es ∧
      decode_pdf_string es [(0x41, 0x61)] = [0x61, 0x61] :=
  ⟨⟨by decide, by decide⟩,
   decode_encode_roundtrip [(0x41, 0x61)] [0x61, 0x61] (by decide) (by decide)⟩

/-! ## C7: the CMap parser can raise (chr overflow), otherwise it is total -/

/-- Counterexample to C7 as stated: a bfchar line whose target value exceeds
0x10FFFF makes `chr` raise `ValueError` inside `parse_cmap` (cmap.py line 38),
so the parser does not return a mapping for every input.  The second input
separates the groups with a no-break space, which `splitlines` keeps inside
the line and the regex class `\s` matches, so it raises as well. -/
theorem parse_cmap_raises_counterexample :
    parse_cmap "<00> <110000>" = Except.error () ∧
    parse_cmap "<00>\u00A0<110000>" = Except.error () :=
  ⟨by rfl, by rfl⟩

theorem parse_fold_ok (lines : List (List Char)) :
    ∀ (acc : Dict Nat Nat),
      (∀ line ∈ lines, lineDeltaOk line = true) →
      ∃ m, lines.foldlM
        (fun m line => (lineDelta line).map
          (fun es => es.foldl (fun m p => dictInsert m p.1 p.2) m)) acc = .ok m := by
  induction lines with
  | nil => intro acc _; exact ⟨acc, rfl⟩
  | cons line rest ih =>
    intro acc h
    have hok := h line (List.mem_cons_self _ _)
    obtain ⟨es, hes⟩ : ∃ es, lineDelta line = .ok es := by
      unfold lineDeltaOk at hok
      cases hld : lineDelta line with
      | ok es => exact ⟨es, rfl⟩
      | error e => rw [hld] at hok; cases hok
    obtain ⟨m, hm⟩ := ih (es.foldl (fun m p => dictInsert m p.1 p.2) acc)
      (fun l hl => h l (List.mem_cons_of_mem _ hl))
    refine ⟨m, ?_⟩
    rw [List.foldlM_cons, hes]
    simpa [Except.map, Bind.bind, Except.bind] using hm

/-- **C7 (amended).** `parse_cmap` terminates normally and returns a
(possibly empty) byte-to-scalar mapping for every input string in which every
matched bfchar/bfrange line yields only valid Unicode scalars (below
0x110000); unmatched (malformed) lines contribute nothing and raise nothing.
A matched target scalar of 0x110000 or above raises `ValueError` from `chr`
(see the counterexample). -/
theorem parse_cmap_total_of_valid_targets (s : String)
    (h : ∀ line ∈ pysplitlines s.data, lineDeltaOk line = true) :
    ∃ m, parse_cmap s = .ok m :=
  parse_fold_ok (pysplitlines s.data) [] h

/-- Witness for C7 (amended) at a concrete input with one malformed line. -/
theorem parse_cmap_total_witness :
    (∀ line ∈ pysplitlines ("garbage\n<41> <0042>").data, lineDeltaOk line = true) ∧
    ∃ m, parse_cmap "garbage\n<41> <0042>" = .ok m :=
  ⟨by decide, parse_cmap_total_of_valid_targets "garbage\n<41> <0042>" (by decide)⟩

/-! ## C2: the code-allocation policy and its actual fallback -/

theorem find?_range'_eq_some (p : Nat → Bool) :
    ∀ (n a c : Nat), (List.range' a n).find? p = some c →
      a ≤ c ∧ c < a + n ∧ p c = true ∧ ∀ c', a ≤ c' → c' < c → p c' = false := by
  intro n
  induction n with
  | zero => intro a c h; simp [List.range'] at h
  | succ n ih =>
    intro a c h
    rw [List.range'] at h
    by_cases hpa : p a
    · rw [List.find?_cons_of_pos _ hpa] at h
      cases h
      exact ⟨le_refl _, by omega, hpa, fun c' h1 h2 => absurd (lt_of_le_of_lt h1 h2) (lt_irrefl _)⟩
    · rw [List.find?_cons_of_neg _ hpa] at h
      obtain ⟨h1, h2, h3, h4⟩ := ih (a + 1) c h
      refine ⟨by omega, by omega, h3, ?_⟩
      intro c' hc1 hc2
      rcases Nat.eq_or_lt_of_le hc1 with h | h
      · subst h; simpa using hpa
      · exact h4 c' h hc2

theorem find?_range'_eq_none (p : Nat → Bool) :
    ∀ (n a : Nat), (List.range' a n).find? p = none →
      ∀ c, a ≤ c → c < a + n → p c = false := by
  intro n
  induction n with
  | zero => intro a _ c h1 h2; omega
  | succ n ih =>
    intro a h c h1 h2
    rw [List.range'] at h
    by_cases hpa : p a
    · rw [List.find?_cons_of_pos _ hpa] at h; cases h
    · rw [List.find?_cons_of_neg _ hpa] at h
      rcases Nat.eq_or_lt_of_le h1 with h' | h'
      · subst h'; simpa using hpa
      · exact ih (a + 1) h c h' (by omega)

/-- **C2 (amended).** When `replace_text` must allocate a fresh code it first
scans 0xB0..=0xFF and picks the smallest code that is in neither used-code set
(the font CMap's domain and the document-wide observed codes), lies in no
font's `/Differences` encoding map on the page, and passes `is_safe_code`
(automatic above 0xB0).  When no such code exists, the fallback
(replacer.py lines 728-743) is *not* 0x80..=0xAF: it scans the extended range
0x100..=0x10F masked by `& 0xFF` — i.e. bytes 0x00..=0x0F in order — requiring
only that the byte is not already a CMap key; if that also fails the character
is skipped (rather than the replacement being refused). -/
theorem allocation_policy (used already : List Nat) (encMaps : Dict String (List Nat))
    (cmap : Dict Nat Nat) :
    (∀ c, findSafeCodePrimary used already encMaps = some c →
      0xB0 ≤ c ∧ c ≤ 0xFF ∧ allocQualifies used already encMaps c = true ∧
      ∀ c', 0xB0 ≤ c' → c' < c → allocQualifies used already encMaps c' = false) ∧
    (findSafeCodePrimary used already encMaps = none →
      ∀ c, 0xB0 ≤ c → c ≤ 0xFF → allocQualifies used already encMaps c = false) ∧
    (∀ c, findExtendedCode cmap = some c →
      c ≤ 0xF ∧ dictContains cmap c = false ∧ ∀ c', c' < c → dictContains cmap c' = true) ∧
    (findExtendedCode cmap = none → ∀ c, c ≤ 0xF → dictContains cmap c = true) := by
  refine ⟨?_, ?_, ?_, ?_⟩
  · intro c h
    obtain ⟨h1, h2, h3, h4⟩ := find?_range'_eq_some _ _ _ _ h
    exact ⟨h1, by omega, h3, h4⟩
  · intro h c h1 h2
    exact find?_range'_eq_none _ _ _ h c h1 (by omega)
  · intro c h
    simp only [findExtendedCode, Option.map_eq_some'] at h
    obtain ⟨c₀, hc₀, rfl⟩ := h
    obtain ⟨h1, h2, h3, h4⟩ := find?_range'_eq_some _ _ _ _ hc₀
    have hmod : c₀ % 256 = c₀ - 256 := by omega
    refine ⟨by omega, by simpa using h3, ?_⟩
    intro c' hc'
    have := h4 (c' + 256) (by omega) (by omega)
    have hmod' : (c' + 256) % 256 = c' := by omega
    simp only [hmod'] at this
    simpa using this
  · intro h c hc
    simp only [findExtendedCode, Option.map_eq_none'] at h
    have := find?_range'_eq_none _ _ _ h (c + 256) (by omega) (by omega)
    have hmod : (c + 256) % 256 = c := by omega
    simp only [hmod] at this
    simpa using this

/-- Witness for C2 (amended) at a concrete input: with 0xB0 taken, the primary
scan returns 0xB1, the smallest qualifying code. -/
theorem allocation_policy_witness :
    (findSafeCodePrimary [0xB0] [] [] = some 0xB1) ∧
    0xB0 ≤ 0xB1 ∧ 0xB1 ≤ 0xFF ∧ allocQualifies [0xB0] [] [] 0xB1 = true ∧
    ∀ c', 0xB0 ≤ c' → c' < 0xB1 → allocQualifies [0xB0] [] [] c' = false :=
  ⟨by decide, (allocation_policy [0xB0] [] [] []).1 0xB1 (by decide)⟩

/-- Counterexample to C2 as stated: with every code of 0xB0..=0xFF already in
use, the claimed fallback would pick 0x80 (which satisfies every constraint of
the claim), but the code allocates byte 0x00 from the masked extended range
instead. -/
theorem allocation_fallback_counterexample :
    findSafeCodePrimary (List.range' 0xB0 0x50) [] [] = none ∧
    allocQualifies (List.range' 0xB0 0x50) [] [] 0x80 = true ∧
    findExtendedCode [] = some 0x00 ∧
    ¬(0x80 ≤ (0x00 : Nat) ∧ (0x00 : Nat) ≤ 0xAF) := by
  refine ⟨by decide, by decide, by decide, by decide⟩

/-- **C1 (code bug).** `replace_text` does commit partial rewrites.  On
failing input 1 the operation reports success and the output stream carries
the untouched original operator *plus* a committed rewrite whose decoded text
is "a" — not the replacement "ab" and not the original.  On failing input 2
(auto-insert disabled, whitespace missing from the font) the original
operator is emitted twice, so the output around the match is not the
untouched original stream either. -/
theorem replace_text_commits_partial_rewrite :
    ((replace_text_model c1Cfg c1State c1Segs).1 = true ∧
     (replace_text_model c1Cfg c1State c1Segs).2.1 =
       [Seg.tf "/F1", Seg.showOp false [Char.ofNat 0x01],
        Seg.showOp false [Char.ofNat 0x41]] ∧
     decodeInner [Char.ofNat 0x41] [(0x41, 0x61), (0x01, 0x58)] = [0x61] ∧
     [0x61] ≠ c1Cfg.replacement) ∧
    ((replace_text_model c1CfgB c1StateB c1SegsB).2.1 =
       [Seg.tf "/F1", Seg.showOp false [Char.ofNat 0x41],
        Seg.showOp false [Char.ofNat 0x41]] ∧
     (replace_text_model c1CfgB c1StateB c1SegsB).2.1 ≠ c1SegsB) := by
  refine ⟨⟨by decide, by decide, by decide, by decide⟩, ⟨by decide, by decide⟩⟩

/-! ## C9: instance selection -/

theorem dictInsert_self {α β : Type} [DecidableEq α] (m : Dict α β) (k : α) (v : β)
    (h : dictGet m k = some v) : dictInsert m k v = m := by
  induction m with
  | nil => simp [dictGet] at h
  | cons p rest ih =>
    obtain ⟨k₀, v₀⟩ := p
    by_cases hk : k = k₀
    · subst hk
      simp [dictGet] at h
      simp [dictInsert, h]
    · simp only [dictGet, if_neg hk] at h
      simp [dictInsert, hk, ih h]

theorem charStep_reuse (st : RState) (allow : Bool) (seg : Seg)
    (charToCode : Dict Nat Nat) (charCodes : Dict Nat (List Nat))
    (ms : MState) (c k : Nat) (ks : List Nat)
    (hbroke : ms.broke = false)
    (hget : dictGet charCodes c = some (k :: ks)) :
    charStep st allow seg charToCode charCodes ms c =
      { ms with newCodes := ms.newCodes ++ [k],
                allocated := dictInsert ms.allocated c k } := by
  simp [charStep, hbroke, dictContains, hget]

theorem charFold_reuse (st : RState) (allow : Bool) (seg : Seg)
    (charToCode : Dict Nat Nat) (charCodes : Dict Nat (List Nat)) :
    ∀ (rep : List Nat) (ms : MState), ms.broke = false →
      (∀ c ∈ rep, ∃ k ks, dictGet charCodes c = some (k :: ks)) →
      ∃ alloc, rep.foldl (charStep st allow seg charToCode charCodes) ms =
        { ms with
          newCodes := ms.newCodes ++
            rep.map (fun c => ((dictGet charCodes c).getD []).headD 0),
          allocated := alloc } := by
  intro rep
  induction rep with
  | nil => intro ms _ _; exact ⟨ms.allocated, by simp⟩
  | cons c rest ih =>
    intro ms hbroke hfeas
    obtain ⟨k, ks, hget⟩ := hfeas c (List.mem_cons_self _ _)
    rw [List.foldl_cons,
      charStep_reuse st allow seg charToCode charCodes ms c k ks hbroke hget]
    obtain ⟨alloc, halloc⟩ :=
      ih { ms with newCodes := ms.newCodes ++ [k],
                   allocated := dictInsert ms.allocated c k }
        (by simpa using hbroke) (fun c hc => hfeas c (List.mem_cons_of_mem _ hc))
    refine ⟨alloc, ?_⟩
    rw [halloc]
    simp [hget]

theorem processMatch_reuse (cfg : Cfg) (ls : LState) (f : String) (cmap : Dict Nat Nat)
    (isTJ : Bool) (seg : Seg)
    (hcmap : dictGet ls.st.fontCmaps f = some cmap)
    (hrep : cfg.replacement ≠ [])
    (hfeas : ∀ c ∈ cfg.replacement,
      ∃ k ks, dictGet ((dictGet ls.st.allCharCodes f).getD []) c = some (k :: ks)) :
    processMatch cfg ls f cmap isTJ seg =
      { ls with out := ls.out ++ [rewriteOf ls.st f cfg.replacement isTJ],
                changed := true } := by
  have hunsup : (cfg.replacement.filter (fun c =>
      !(dictContains ((dictGet ls.st.allCharCodes f).getD []) c || isWsScalar c))) = [] := by
    rw [List.filter_eq_nil_iff]
    intro c hc
    obtain ⟨k, ks, hget⟩ := hfeas c hc
    simp [dictContains, hget]
  obtain ⟨alloc, hfold⟩ := charFold_reuse ls.st cfg.allowAutoInsert seg
    (invertCmap cmap) ((dictGet ls.st.allCharCodes f).getD []) cfg.replacement
    { cmap := cmap, used := cmap.map Prod.fst,
      already := (dictGet ls.st.allUsedCodes f).getD [], newCodes := [],
      allocated := [], extra := [], modified := false, broke := false }
    rfl hfeas
  have hlen : (cfg.replacement.map
      (fun c => ((dictGet ((dictGet ls.st.allCharCodes f).getD []) c).getD []).headD 0)).length =
      cfg.replacement.length := List.length_map _ _
  have hfc : dictInsert ls.st.fontCmaps f cmap = ls.st.fontCmaps :=
    dictInsert_self _ _ _ hcmap
  have hau : (if (dictGet ls.st.allUsedCodes f).isSome then
      dictInsert ls.st.allUsedCodes f ((dictGet ls.st.allUsedCodes f).getD [])
      else ls.st.allUsedCodes) = ls.st.allUsedCodes := by
    cases h : dictGet ls.st.allUsedCodes f with
    | none => simp [h]
    | some a => simp [h, dictInsert_self _ _ _ h]
  simp only [processMatch, hunsup, hfold]
  simp [hunsup, hfold, hfc, hau, hlen, hrep, rewriteOf, reuseCodes]

theorem expectedOut_counter_irrel (st : RState) (cfg : Cfg)
    (hidx : cfg.instanceIndex < 0) :
    ∀ (segs : List Seg) (font : Option String) (c c' : Nat),
      expectedOut st cfg segs font c = expectedOut st cfg segs font c' := by
  intro segs
  induction segs with
  | nil => intro font c c'; rfl
  | cons seg rest ih =>
    intro font c c'
    by_cases hm : segMatches st cfg.target font seg = true
    · simp only [expectedOut, if_pos hm]
      rw [if_pos (Or.inl hidx), if_pos (Or.inl hidx), ih (nextFont font seg) (c + 1) (c' + 1)]
    · simp only [expectedOut, if_neg hm]
      rw [ih (nextFont font seg) c c']

theorem anySel_zero (idx : Int) (c0 : Nat) : anySel idx c0 0 = false := by
  unfold anySel
  split
  · apply decide_eq_false; push_cast; omega
  · apply decide_eq_false; omega

theorem anySel_skip (idx : Int) (c0 n : Nat) (h1 : 0 ≤ idx) (h2 : (c0 : Int) ≠ idx) :
    anySel idx c0 (1 + n) = anySel idx (c0 + 1) n := by
  unfold anySel
  rw [if_pos h1, if_pos h1]
  apply decide_eq_decide.mpr
  push_cast
  omega

theorem anySel_hit (idx : Int) (c0 n : Nat) (h : idx < 0 ∨ (c0 : Int) = idx) :
    anySel idx c0 (1 + n) = true := by
  unfold anySel
  rcases h with h | h
  · rw [if_neg (by omega)]; apply decide_eq_true; omega
  · rw [if_pos (by omega)]; apply decide_eq_true; push_cast; omega

theorem processSegs_cons (cfg : Cfg) (seg : Seg) (rest : List Seg) (ls : LState) :
    processSegs cfg (seg :: rest) ls = processSegs cfg rest (processSeg cfg ls seg) := rfl

theorem processSegs_reuse_spec (cfg : Cfg) (st0 : RState)
    (hrep : cfg.replacement ≠ []) :
    ∀ (segs : List Seg) (font : Option String) (counter : Nat) (changed : Bool)
      (modF : List String) (out : List Seg),
      (∀ f ∈ matchFonts st0 cfg.target segs font, ∀ c ∈ cfg.replacement,
        ∃ k ks, dictGet ((dictGet st0.allCharCodes f).getD []) c = some (k :: ks)) →
      processSegs cfg segs
        { st := st0, font := font, counter := counter, changed := changed,
          modifiedFonts := modF, out := out } =
      { st := st0, font := segs.foldl nextFont font,
        counter := counter +
          (if 0 ≤ cfg.instanceIndex then numMatches st0 cfg.target segs font else 0),
        changed := changed ||
          anySel cfg.instanceIndex counter (numMatches st0 cfg.target segs font),
        modifiedFonts := modF,
        out := out ++ expectedOut st0 cfg segs font counter } := by
  intro segs
  induction segs with
  | nil =>
    intro font counter changed modF out _
    simp [processSegs, numMatches, expectedOut, anySel_zero]
  | cons seg rest ih =>
    intro font counter changed modF out hfeas
    have hfeasRest : ∀ f ∈ matchFonts st0 cfg.target rest (nextFont font seg),
        ∀ c ∈ cfg.replacement,
        ∃ k ks, dictGet ((dictGet st0.allCharCodes f).getD []) c = some (k :: ks) := by
      intro f hf
      refine hfeas f ?_
      simp only [matchFonts, List.mem_append]
      exact Or.inr hf
    rw [processSegs_cons]
    match seg with
    | Seg.raw s =>
      have hps : processSeg cfg
          { st := st0, font := font, counter := counter, changed := changed,
            modifiedFonts := modF, out := out } (Seg.raw s) =
          { st := st0, font := font, counter := counter, changed := changed,
            modifiedFonts := modF, out := out ++ [Seg.raw s] } := rfl
      rw [hps, ih font counter changed modF (out ++ [Seg.raw s])
        (by simpa [nextFont] using hfeasRest)]
      simp [numMatches, segMatches, expectedOut, nextFont]
    | Seg.tm s =>
      have hps : processSeg cfg
          { st := st0, font := font, counter := counter, changed := changed,
            modifiedFonts := modF, out := out } (Seg.tm s) =
          { st := st0, font := font, counter := counter, changed := changed,
            modifiedFonts := modF, out := out ++ [Seg.tm s] } := rfl
      rw [hps, ih font counter changed modF (out ++ [Seg.tm s])
        (by simpa [nextFont] using hfeasRest)]
      simp [numMatches, segMatches, expectedOut, nextFont]
    | Seg.tf g =>
      have hps : processSeg cfg
          { st := st0, font := font, counter := counter, changed := changed,
            modifiedFonts := modF, out := out } (Seg.tf g) =
          { st := st0, font := some g, counter := counter, changed := changed,
            modifiedFonts := modF, out := out ++ [Seg.tf g] } := rfl
      rw [hps, ih (some g) counter changed modF (out ++ [Seg.tf g])
        (by simpa [nextFont] using hfeasRest)]
      simp [numMatches, segMatches, expectedOut, nextFont]
    | Seg.showOp isTJ inner =>
      match font with
      | none =>
        have hps : processSeg cfg
            { st := st0, font := none, counter := counter, changed := changed,
              modifiedFonts := modF, out := out } (Seg.showOp isTJ inner) =
            { st := st0, font := none, counter := counter, changed := changed,
              modifiedFonts := modF, out := out ++ [Seg.showOp isTJ inner] } := rfl
        rw [hps, ih none counter changed modF (out ++ [Seg.showOp isTJ inner])
          (by simpa [nextFont] using hfeasRest)]
        simp [numMatches, segMatches, expectedOut, nextFont]
      | some f =>
        cases hc : dictGet st0.fontCmaps f with
        | none =>
          have hsm : segMatches st0 cfg.target (some f) (Seg.showOp isTJ inner) = false := by
            simp [segMatches, hc]
          have hps : processSeg cfg
              { st := st0, font := some f, counter := counter, changed := changed,
                modifiedFonts := modF, out := out } (Seg.showOp isTJ inner) =
              { st := st0, font := some f, counter := counter, changed := changed,
                modifiedFonts := modF, out := out ++ [Seg.showOp isTJ inner] } := by
            simp [processSeg, hc]
          rw [hps, ih (some f) counter changed modF (out ++ [Seg.showOp isTJ inner])
            (by simpa [nextFont] using hfeasRest)]
          simp [numMatches, expectedOut, nextFont, hsm]
        | some cmap =>
          by_cases hdec : decodeInner inner cmap = cfg.target
          case neg =>
            have hsm : segMatches st0 cfg.target (some f) (Seg.showOp isTJ inner) = false := by
              simp [segMatches, hc, hdec]
            have hps : processSeg cfg
                { st := st0, font := some f, counter := counter, changed := changed,
                  modifiedFonts := modF, out := out } (Seg.showOp isTJ inner) =
                { st := st0, font := some f, counter := counter, changed := changed,
                  modifiedFonts := modF, out := out ++ [Seg.showOp isTJ inner] } := by
              simp [processSeg, hc, hdec]
            rw [hps, ih (some f) counter changed modF (out ++ [Seg.showOp isTJ inner])
              (by simpa [nextFont] using hfeasRest)]
            simp [numMatches, expectedOut, nextFont, hsm]
          case pos =>
            have hsm : segMatches st0 cfg.target (some f) (Seg.showOp isTJ inner) = true := by
              simp [segMatches, hc, hdec]
            have hfeasF : ∀ c ∈ cfg.replacement,
                ∃ k ks, dictGet ((dictGet st0.allCharCodes f).getD []) c = some (k :: ks) := by
              refine hfeas f ?_
              simp [matchFonts, hsm]
            have hnum : numMatches st0 cfg.target (Seg.showOp isTJ inner :: rest) (some f) =
                1 + numMatches st0 cfg.target rest (some f) := by
              simp [numMatches, hsm, nextFont]
            by_cases hskip : 0 ≤ cfg.instanceIndex ∧ (counter : Int) ≠ cfg.instanceIndex
            case pos =>
              have hps : processSeg cfg
                  { st := st0, font := some f, counter := counter, changed := changed,
                    modifiedFonts := modF, out := out } (Seg.showOp isTJ inner) =
                  { st := st0, font := some f, counter := counter + 1, changed := changed,
                    modifiedFonts := modF, out := out ++ [Seg.showOp isTJ inner] } := by
                simp [processSeg, hc, hdec, hskip]
              rw [hps, ih (some f) (counter + 1) changed modF (out ++ [Seg.showOp isTJ inner])
                (by simpa [nextFont] using hfeasRest)]
              have hsel : ¬(cfg.instanceIndex < 0 ∨ (counter : Int) = cfg.instanceIndex) := by
                omega
              rw [hnum, anySel_skip cfg.instanceIndex counter _ hskip.1 hskip.2]
              simp only [expectedOut, if_pos hsm, if_neg hsel, nextFont]
              simp [List.foldl_cons, nextFont, hskip.1]
              omega
            case neg =>
              have hsel : cfg.instanceIndex < 0 ∨ (counter : Int) = cfg.instanceIndex := by
                omega
              have hps : processSeg cfg
                  { st := st0, font := some f, counter := counter, changed := changed,
                    modifiedFonts := modF, out := out } (Seg.showOp isTJ inner) =
                processMatch cfg
                  (if 0 ≤ cfg.instanceIndex then
                    { st := st0, font := some f, counter := counter + 1, changed := changed,
                      modifiedFonts := modF, out := out }
                   else
                    { st := st0, font := some f, counter := counter, changed := changed,
                      modifiedFonts := modF, out := out })
                  f cmap isTJ (Seg.showOp isTJ inner) := by
                simp only [processSeg, hc, hdec, eq_self_iff_true, if_true]
                rw [if_neg hskip]
              rw [hps]
              by_cases hi : 0 ≤ cfg.instanceIndex
              case pos =>
                rw [if_pos hi,
                  processMatch_reuse cfg _ f cmap isTJ (Seg.showOp isTJ inner) hc hrep hfeasF,
                  ih (some f) (counter + 1) true modF
                    (out ++ [rewriteOf st0 f cfg.replacement isTJ])
                    (by simpa [nextFont] using hfeasRest)]
                rw [hnum, anySel_hit cfg.instanceIndex counter _ hsel]
                simp only [expectedOut, if_pos hsm, if_pos hsel, nextFont]
                simp [List.foldl_cons, nextFont, hi, rewriteOf]
                omega
              case neg =>
                have hi' : cfg.instanceIndex < 0 := by omega
                rw [if_neg hi,
                  processMatch_reuse cfg _ f cmap isTJ (Seg.showOp isTJ inner) hc hrep hfeasF,
                  ih (some f) counter true modF
                    (out ++ [rewriteOf st0 f cfg.replacement isTJ])
                    (by simpa [nextFont] using hfeasRest)]
                rw [hnum, anySel_hit cfg.instanceIndex counter _ hsel]
                rw [expectedOut_counter_irrel st0 cfg hi' rest (some f) counter (counter + 1)]
                simp only [expectedOut, if_pos hsm, if_pos hsel, nextFont]
                simp [List.foldl_cons, nextFont, hi, rewriteOf]

theorem feas_of_isEmpty (charCodes : Dict Nat (List Nat)) (c : Nat)
    (h : ((dictGet charCodes c).getD []).isEmpty = false) :
    ∃ k ks, dictGet charCodes c = some (k :: ks) := by
  cases hg : dictGet charCodes c with
  | none => rw [hg] at h; simp at h
  | some l =>
    cases l with
    | nil => rw [hg] at h; simp at h
    | cons k ks => exact ⟨k, ks, rfl⟩

/-- **C9.** Matches of the target on the page are numbered 0, 1, 2, … in
content-stream discovery order.  Provided the operation is not rejected at
input (distinct target and replacement, nonempty replacement, the global
pre-check passes) and every character of the replacement has an observed code
in the font of each match (so no per-match refusal path fires): when an
instance index is supplied, exactly the match with that index is rewritten
and every other segment passes through unchanged; when no instance index is
supplied (`-1`), every match is rewritten.  The derived font state is
untouched, and the operation succeeds exactly when some match was selected
(`anySel`). -/
theorem replace_text_instance_selection (cfg : Cfg) (st : RState) (segs : List Seg)
    (hne : cfg.target ≠ cfg.replacement)
    (hrep : cfg.replacement ≠ [])
    (hpre : cfg.allowAutoInsert = false → globalUnsupported cfg st segs = [])
    (hfeas : ∀ f ∈ matchFonts st cfg.target segs none, ∀ c ∈ cfg.replacement,
      ((dictGet ((dictGet st.allCharCodes f).getD []) c).getD []).isEmpty = false) :
    replace_text_model cfg st segs =
      (anySel cfg.instanceIndex 0 (numMatches st cfg.target segs none),
       expectedOut st cfg segs none 0, st) := by
  have hfeas' : ∀ f ∈ matchFonts st cfg.target segs none, ∀ c ∈ cfg.replacement,
      ∃ k ks, dictGet ((dictGet st.allCharCodes f).getD []) c = some (k :: ks) :=
    fun f hf c hc => feas_of_isEmpty _ _ (hfeas f hf c hc)
  unfold replace_text_model
  rw [if_neg hne]
  have hgate : (!(globalUnsupported cfg st segs).isEmpty && !cfg.allowAutoInsert) = false := by
    cases h : cfg.allowAutoInsert
    · rw [hpre h]; simp
    · simp
  rw [if_neg (by simp [hgate])]
  rw [processSegs_reuse_spec cfg st hrep segs none 0 false [] [] hfeas']
  simp

/-- Witness for C9 at a concrete input: two matches of "a", instance index 1;
the second match alone is rewritten. -/
theorem replace_text_instance_selection_witness :
    (c9Cfg.target ≠ c9Cfg.replacement ∧ c9Cfg.replacement ≠ [] ∧
     (c9Cfg.allowAutoInsert = false → globalUnsupported c9Cfg c9State c9Segs = []) ∧
     (∀ f ∈ matchFonts c9State c9Cfg.target c9Segs none, ∀ c ∈ c9Cfg.replacement,
       ((dictGet ((dictGet c9State.allCharCodes f).getD []) c).getD []).isEmpty = false)) ∧
    replace_text_model c9Cfg c9State c9Segs =
      (anySel c9Cfg.instanceIndex 0 (numMatches c9State c9Cfg.target c9Segs none),
       expectedOut c9State c9Cfg c9Segs none 0, c9State) :=
  ⟨⟨by decide, by decide, by decide, by decide⟩,
   replace_text_instance_selection c9Cfg c9State c9Segs
     (by decide) (by decide) (by decide) (by decide)⟩

/-! ## C4: serializing and reparsing a CMap

Lemma pile, bottom up: hex formatting round-trips through the parser's hex
reader; an entry line is matched by the bfchar regex and by nothing else;
`splitlines` of the serialized text is the line list `serLines`; folding the
parser over those lines yields the original dictionary plus the codespacerange
artefact `0x00 → U+00FF`. -/

theorem hexDigitVal_hexDigitChar (d : Nat) (h : d < 16) :
    hexDigitVal (hexDigitChar d) = d := by
  interval_cases d <;> decide

theorem isHex_hexDigitChar (d : Nat) : isHexDigitCh (hexDigitChar d) = true := by
  unfold hexDigitChar
  split <;> decide

theorem hexDigitsGo_ne_nil (fuel n : Nat) : hexDigitsGo fuel n ≠ [] := by
  cases fuel with
  | zero => simp [hexDigitsGo]
  | succ fuel =>
    unfold hexDigitsGo
    split
    · simp
    · simp

theorem hexDigits_ne_nil (n : Nat) : hexDigits n ≠ [] := hexDigitsGo_ne_nil n n

theorem hexDigitsGo_all_hex (fuel : Nat) :
    ∀ (n : Nat), ∀ c ∈ hexDigitsGo fuel n, isHexDigitCh c = true := by
  induction fuel with
  | zero =>
    intro n c hc
    simp [hexDigitsGo] at hc
    subst hc
    exact isHex_hexDigitChar n
  | succ fuel ih =>
    intro n c hc
    unfold hexDigitsGo at hc
    split at hc
    · simp at hc
      subst hc
      exact isHex_hexDigitChar n
    · rcases List.mem_append.mp hc with h | h
      · exact ih (n / 16) c h
      · simp at h
        subst h
        exact isHex_hexDigitChar (n % 16)

theorem hexDigits_all_hex (n : Nat) : ∀ c ∈ hexDigits n, isHexDigitCh c = true :=
  hexDigitsGo_all_hex n n

theorem hexVal_append_digit (a : List Char) (c : Char) :
    hexVal (a ++ [c]) = 16 * hexVal a + hexDigitVal c := by
  simp [hexVal, List.foldl_append]

theorem hexVal_hexDigitsGo (fuel : Nat) :
    ∀ (n : Nat), n ≤ fuel → hexVal (hexDigitsGo fuel n) = n := by
  induction fuel with
  | zero =>
    intro n hn
    have : n = 0 := by omega
    subst this
    decide
  | succ fuel ih =>
    intro n hn
    unfold hexDigitsGo
    split
    case isTrue h =>
      simp [hexVal, hexDigitVal_hexDigitChar n h]
    case isFalse h =>
      rw [hexVal_append_digit, ih (n / 16) (by omega),
        hexDigitVal_hexDigitChar (n % 16) (Nat.mod_lt _ (by omega))]
      omega

theorem hexVal_hexDigits (n : Nat) : hexVal (hexDigits n) = n :=
  hexVal_hexDigitsGo n n (le_refl n)

theorem hexVal_replicate_zero (k : Nat) (ds : List Char) :
    hexVal (List.replicate k '0' ++ ds) = hexVal ds := by
  induction k with
  | zero => simp
  | succ k ih =>
    rw [List.replicate_succ, List.cons_append]
    show hexVal ('0' :: (List.replicate k '0' ++ ds)) = hexVal ds
    have : hexVal ('0' :: (List.replicate k '0' ++ ds)) =
        (List.replicate k '0' ++ ds).foldl (fun a c => 16 * a + hexDigitVal c)
          (16 * 0 + hexDigitVal '0') := rfl
    rw [this]
    have h0 : 16 * 0 + hexDigitVal '0' = 0 := by decide
    rw [h0]
    exact ih

theorem hexVal_hexPad (w n : Nat) : hexVal (hexPad w n) = n := by
  unfold hexPad
  rw [hexVal_replicate_zero, hexVal_hexDigits]

theorem hexPad_ne_nil (w n : Nat) : hexPad w n ≠ [] := by
  unfold hexPad
  intro h
  rcases List.append_eq_nil.mp h with ⟨_, h2⟩
  exact hexDigits_ne_nil n h2

theorem hexPad_all_hex (w n : Nat) : ∀ c ∈ hexPad w n, isHexDigitCh c = true := by
  intro c hc
  rcases List.mem_append.mp hc with h | h
  · have := List.eq_of_mem_replicate h
    subst this
    decide
  · exact hexDigits_all_hex n c h

theorem isHex_ranges (c : Char) (h : isHexDigitCh c = true) :
    (0x30 ≤ c.toNat ∧ c.toNat ≤ 0x39) ∨ (0x41 ≤ c.toNat ∧ c.toNat ≤ 0x46) ∨
    (0x61 ≤ c.toNat ∧ c.toNat ≤ 0x66) := by
  unfold isHexDigitCh at h
  simp only [Bool.or_eq_true, decide_eq_true_eq, Bool.and_eq_true] at h
  omega

theorem isHex_not_break (c : Char) (h : isHexDigitCh c = true) :
    isLineBreak c = false := by
  have := isHex_ranges c h
  unfold isLineBreak
  simp only [Bool.or_eq_false_iff, decide_eq_false_iff_not]
  omega

theorem isHex_ne_lt (c : Char) (h : isHexDigitCh c = true) : c ≠ '<' := by
  intro hc
  subst hc
  simp [isHexDigitCh] at h

theorem takeWhile_all_append {p : Char → Bool} (l : List Char) (c : Char)
    (r : List Char) (hl : ∀ x ∈ l, p x = true) (hc : p c = false) :
    (l ++ c :: r).takeWhile p = l ∧ (l ++ c :: r).dropWhile p = c :: r := by
  induction l with
  | nil => simp [List.takeWhile, List.dropWhile, hc]
  | cons x l' ih =>
    have hx := hl x (List.mem_cons_self _ _)
    have := ih (fun y hy => hl y (List.mem_cons_of_mem _ hy))
    simp [List.takeWhile, List.dropWhile, hx, this.1, this.2]

theorem matchHexGroup_pos (H : List Char) (r : List Char)
    (hne : H ≠ []) (hhex : ∀ c ∈ H, isHexDigitCh c = true) :
    matchHexGroup ('<' :: (H ++ '>' :: r)) = some (hexVal H, r) := by
  obtain ⟨htake, hdrop⟩ := takeWhile_all_append H '>' r hhex (by decide)
  simp [matchHexGroup, htake, hdrop, hne]

theorem matchHexGroup_ne_lt (c : Char) (l : List Char) (h : c ≠ '<') :
    matchHexGroup (c :: l) = none := by
  simp [matchHexGroup, h]

theorem matchRangeAt_ne_lt (c : Char) (l : List Char) (h : c ≠ '<') :
    matchRangeAt (c :: l) = none := by
  simp [matchRangeAt, matchHexGroup_ne_lt c l h]

theorem matchCharAt_ne_lt (c : Char) (l : List Char) (h : c ≠ '<') :
    matchCharAt (c :: l) = none := by
  simp [matchCharAt, matchHexGroup_ne_lt c l h]

theorem searchRangeIn_cons (c : Char) (rest : List Char) :
    searchRangeIn (c :: rest) =
      (match matchRangeAt (c :: rest) with
       | some r => some r
       | none => searchRangeIn rest) := rfl

theorem searchCharIn_cons (c : Char) (rest : List Char) :
    searchCharIn (c :: rest) =
      (match matchCharAt (c :: rest) with
       | some r => some r
       | none => searchCharIn rest) := rfl

theorem searchRangeIn_hexrun (H : List Char) (hhex : ∀ c ∈ H, isHexDigitCh c = true)
    (rest : List Char) (hrest : searchRangeIn rest = none) :
    searchRangeIn (H ++ rest) = none := by
  induction H with
  | nil => simpa using hrest
  | cons c H' ih =>
    have hc := isHex_ne_lt c (hhex c (List.mem_cons_self _ _))
    rw [List.cons_append, searchRangeIn_cons, matchRangeAt_ne_lt c _ hc]
    exact ih (fun x hx => hhex x (List.mem_cons_of_mem _ hx))

theorem searchCharIn_hexrun (H : List Char) (hhex : ∀ c ∈ H, isHexDigitCh c = true)
    (rest : List Char) (hrest : searchCharIn rest = none) :
    searchCharIn (H ++ rest) = none := by
  induction H with
  | nil => simpa using hrest
  | cons c H' ih =>
    have hc := isHex_ne_lt c (hhex c (List.mem_cons_self _ _))
    rw [List.cons_append, searchCharIn_cons, matchCharAt_ne_lt c _ hc]
    exact ih (fun x hx => hhex x (List.mem_cons_of_mem _ hx))

theorem search_no_lt (l : List Char) (h : ∀ c ∈ l, c ≠ '<') :
    searchCharIn l = none ∧ searchRangeIn l = none := by
  induction l with
  | nil => exact ⟨rfl, rfl⟩
  | cons c rest ih =>
    have hc := h c (List.mem_cons_self _ _)
    have := ih (fun x hx => h x (List.mem_cons_of_mem _ hx))
    rw [searchCharIn_cons, searchRangeIn_cons, matchCharAt_ne_lt c _ hc,
      matchRangeAt_ne_lt c _ hc]
    exact this

theorem matchCharAt_entryLine (p : Nat × Nat) :
    matchCharAt (entryLine p) = some (p.1, p.2) := by
  have h1 := matchHexGroup_pos (hexPad 2 p.1) (' ' :: '<' :: (hexPad 4 p.2 ++ ['>']))
    (hexPad_ne_nil 2 p.1) (hexPad_all_hex 2 p.1)
  have h2 := matchHexGroup_pos (hexPad 4 p.2) [] (hexPad_ne_nil 4 p.2) (hexPad_all_hex 4 p.2)
  have hskip : skipSpaces (' ' :: '<' :: (hexPad 4 p.2 ++ ['>'])) =
      '<' :: (hexPad 4 p.2 ++ ['>']) := by
    simp [skipSpaces, List.dropWhile, isPySpace]
  unfold entryLine matchCharAt
  simp only [h1, hskip, h2, hexVal_hexPad]

theorem matchRangeAt_entryLine (p : Nat × Nat) :
    matchRangeAt (entryLine p) = none := by
  have h1 := matchHexGroup_pos (hexPad 2 p.1) (' ' :: '<' :: (hexPad 4 p.2 ++ ['>']))
    (hexPad_ne_nil 2 p.1) (hexPad_all_hex 2 p.1)
  have h2 := matchHexGroup_pos (hexPad 4 p.2) [] (hexPad_ne_nil 4 p.2) (hexPad_all_hex 4 p.2)
  have hskip : skipSpaces (' ' :: '<' :: (hexPad 4 p.2 ++ ['>'])) =
      '<' :: (hexPad 4 p.2 ++ ['>']) := by
    simp [skipSpaces, List.dropWhile, isPySpace]
  unfold entryLine matchRangeAt
  simp only [h1, hskip, h2, hexVal_hexPad]
  simp [skipSpaces, matchHexGroup]

theorem searchCharIn_entryLine (p : Nat × Nat) :
    searchCharIn (entryLine p) = some (p.1, p.2) := by
  have : entryLine p = '<' :: (hexPad 2 p.1 ++ '>' :: ' ' :: '<' :: (hexPad 4 p.2 ++ ['>'])) := rfl
  rw [this, searchCharIn_cons]
  rw [show ('<' :: (hexPad 2 p.1 ++ '>' :: ' ' :: '<' :: (hexPad 4 p.2 ++ ['>']))) = entryLine p from rfl,
    matchCharAt_entryLine]

theorem searchRangeIn_entryLine (p : Nat × Nat) :
    searchRangeIn (entryLine p) = none := by
  have he : entryLine p = '<' :: (hexPad 2 p.1 ++ '>' :: ' ' :: '<' :: (hexPad 4 p.2 ++ ['>'])) := rfl
  rw [he, searchRangeIn_cons]
  rw [show ('<' :: (hexPad 2 p.1 ++ '>' :: ' ' :: '<' :: (hexPad 4 p.2 ++ ['>']))) = entryLine p from rfl,
    matchRangeAt_entryLine]
  rw [searchRangeIn_hexrun (hexPad 2 p.1) (hexPad_all_hex 2 p.1)]
  rw [searchRangeIn_cons, matchRangeAt_ne_lt _ _ (by decide)]
  rw [searchRangeIn_cons, matchRangeAt_ne_lt _ _ (by decide)]
  have hmr : matchRangeAt ('<' :: (hexPad 4 p.2 ++ ['>'])) = none := by
    unfold matchRangeAt
    have : hexPad 4 p.2 ++ ['>'] = hexPad 4 p.2 ++ '>' :: [] := rfl
    rw [this, matchHexGroup_pos (hexPad 4 p.2) _ (hexPad_ne_nil 4 p.2) (hexPad_all_hex 4 p.2)]
    simp [skipSpaces, matchHexGroup]
  rw [searchRangeIn_cons, hmr]
  rw [searchRangeIn_hexrun (hexPad 4 p.2) (hexPad_all_hex 4 p.2)]
  rw [searchRangeIn_cons, matchRangeAt_ne_lt _ _ (by decide)]
  rfl

theorem lineDelta_entryLine (p : Nat × Nat) (hk : p.1 ≤ 0xFF) (hv : p.2 < 0x110000) :
    lineDelta (entryLine p) = .ok [(p.1, p.2)] := by
  unfold lineDelta
  rw [searchRangeIn_entryLine, searchCharIn_entryLine]
  have h1 : ¬p.1 > 0xFF := by omega
  simp [h1, pychr, hv, Except.map]

theorem entryLine_no_break (p : Nat × Nat) :
    ∀ c ∈ entryLine p, isLineBreak c = false := by
  intro c hc
  unfold entryLine at hc
  rcases List.mem_cons.mp hc with rfl | hc
  · decide
  rcases List.mem_append.mp hc with h | hc
  · exact isHex_not_break c (hexPad_all_hex 2 p.1 c h)
  rcases List.mem_cons.mp hc with rfl | hc
  · decide
  rcases List.mem_cons.mp hc with rfl | hc
  · decide
  rcases List.mem_cons.mp hc with rfl | hc
  · decide
  rcases List.mem_append.mp hc with h | hc
  · exact isHex_not_break c (hexPad_all_hex 4 p.2 c h)
  · simp at hc
    subst hc
    decide

theorem decDigitChar_ne_lt (d : Nat) : decDigitChar d ≠ '<' := by
  unfold decDigitChar
  split <;> decide

theorem decDigitChar_no_break (d : Nat) : isLineBreak (decDigitChar d) = false := by
  unfold decDigitChar
  split <;> decide

theorem decDigitsGo_ne_lt (fuel : Nat) : ∀ (n : Nat), ∀ c ∈ decDigitsGo fuel n, c ≠ '<' := by
  induction fuel with
  | zero =>
    intro n c hc
    simp [decDigitsGo] at hc
    subst hc
    exact decDigitChar_ne_lt n
  | succ fuel ih =>
    intro n c hc
    unfold decDigitsGo at hc
    split at hc
    · simp at hc
      subst hc
      exact decDigitChar_ne_lt n
    · rcases List.mem_append.mp hc with h | h
      · exact ih (n / 10) c h
      · simp at h
        subst h
        exact decDigitChar_ne_lt (n % 10)

theorem decDigits_ne_lt (n : Nat) : ∀ c ∈ decDigits n, c ≠ '<' :=
  decDigitsGo_ne_lt n n

theorem decDigitsGo_no_break (fuel : Nat) :
    ∀ (n : Nat), ∀ c ∈ decDigitsGo fuel n, isLineBreak c = false := by
  induction fuel with
  | zero =>
    intro n c hc
    simp [decDigitsGo] at hc
    subst hc
    exact decDigitChar_no_break n
  | succ fuel ih =>
    intro n c hc
    unfold decDigitsGo at hc
    split at hc
    · simp at hc
      subst hc
      exact decDigitChar_no_break n
    · rcases List.mem_append.mp hc with h | h
      · exact ih (n / 10) c h
      · simp at h
        subst h
        exact decDigitChar_no_break (n % 10)

theorem decDigits_no_break (n : Nat) : ∀ c ∈ decDigits n, isLineBreak c = false :=
  decDigitsGo_no_break n n

theorem lineDelta_numline (n : Nat) :
    lineDelta (decDigits n ++ (" beginbfchar").data) = .ok [] := by
  have hlt : ∀ c ∈ decDigits n ++ (" beginbfchar").data, c ≠ '<' := by
    intro c hc
    rcases List.mem_append.mp hc with h | h
    · exact decDigits_ne_lt n c h
    · intro hx
      subst hx
      revert h
      decide
  obtain ⟨h1, h2⟩ := search_no_lt _ hlt
  unfold lineDelta
  rw [h2, h1]

theorem numline_no_break (n : Nat) :
    ∀ c ∈ decDigits n ++ (" beginbfchar").data, isLineBreak c = false := by
  intro c hc
  rcases List.mem_append.mp hc with h | h
  · exact decDigits_no_break n c h
  · have hconc : ∀ x ∈ (" beginbfchar").data, isLineBreak x = false := by decide
    exact hconc c h

theorem pysplitGo_cons_nobreak (c : Char) (rest acc : List Char)
    (hc : isLineBreak c = false) :
    pysplitlinesGo (c :: rest) acc false = pysplitlinesGo rest (c :: acc) false := by
  rw [pysplitlinesGo]
  rw [if_neg (by simp), if_neg (by simp [hc])]

theorem pysplitGo_cons_newline (rest acc : List Char) :
    pysplitlinesGo ('\n' :: rest) acc false =
      acc.reverse :: pysplitlinesGo rest [] false := by
  rw [pysplitlinesGo]
  rw [if_neg (by simp), if_pos (by decide)]
  have hd : decide (('\n').toNat = 0x0D) = false := by decide
  rw [hd]

theorem splitGo_append_newline (l : List Char) (hl : ∀ c ∈ l, isLineBreak c = false) :
    ∀ (rest acc : List Char),
      pysplitlinesGo (l ++ '\n' :: rest) acc false =
        (acc.reverse ++ l) :: pysplitlinesGo rest [] false := by
  induction l with
  | nil =>
    intro rest acc
    rw [List.nil_append, pysplitGo_cons_newline]
    simp
  | cons c l' ih =>
    intro rest acc
    rw [List.cons_append,
      pysplitGo_cons_nobreak c _ acc (hl c (List.mem_cons_self _ _)),
      ih (fun x hx => hl x (List.mem_cons_of_mem _ hx)) rest (c :: acc)]
    simp

theorem pysplit_joinlines (lines : List (List Char))
    (h : ∀ line ∈ lines, ∀ c ∈ line, isLineBreak c = false) (tail : List Char) :
    pysplitlinesGo (lines.foldr (fun l acc => l ++ '\n' :: acc) tail) [] false =
      lines ++ pysplitlinesGo tail [] false := by
  induction lines with
  | nil => rfl
  | cons l rest ih =>
    rw [List.foldr_cons,
      splitGo_append_newline l (h l (List.mem_cons_self _ _)) _ [],
      ih (fun l' h' => h l' (List.mem_cons_of_mem _ h'))]
    simp

theorem entry_foldl (l : List (Nat × Nat)) :
    ∀ (acc X : List Char),
      (l.foldl (fun a p => a ++ entryLine p ++ ['\n']) acc) ++ X =
        acc ++ l.foldr (fun p acc => entryLine p ++ '\n' :: acc) X := by
  induction l with
  | nil => intro acc X; simp
  | cons p l' ih =>
    intro acc X
    rw [List.foldl_cons, ih, List.foldr_cons]
    simp [List.append_assoc]

set_option maxRecDepth 40000 in
theorem serialize_eq_serLines (m : Dict Nat Nat) :
    serializeCmap m =
      (serLines m).foldr (fun l acc => l ++ '\n' :: acc) (("end").data) := by
  unfold serLines
  rw [List.foldr_append, List.foldr_append, List.foldr_append, List.foldr_map]
  have hfoot : ([("endbfchar").data, ("endcmap").data,
      ("CMapName currentdict /CMap defineresource pop").data, ("end").data].foldr
        (fun l acc => l ++ '\n' :: acc) (("end").data)) = cmapFooter := rfl
  rw [hfoot]
  have hent : (sortEntries m).foldr (fun p acc => entryLine p ++ '\n' :: acc) cmapFooter =
      ((sortEntries m).foldl (fun a p => a ++ entryLine p ++ ['\n']) []) ++ cmapFooter := by
    rw [entry_foldl (sortEntries m) [] cmapFooter]
    simp
  rw [hent]
  have hhead : ∀ Z : List Char,
      cmapHeaderLines.foldr (fun l acc => l ++ '\n' :: acc) Z = cmapHeader ++ Z :=
    fun Z => rfl
  rw [show ([decDigits (sortEntries m).length ++ (" beginbfchar").data].foldr
      (fun l acc => l ++ '\n' :: acc)
      (((sortEntries m).foldl (fun a p => a ++ entryLine p ++ ['\n']) []) ++ cmapFooter)) =
      (decDigits (sortEntries m).length ++ (" beginbfchar").data) ++ '\n' ::
        (((sortEntries m).foldl (fun a p => a ++ entryLine p ++ ['\n']) []) ++ cmapFooter) from rfl]
  rw [hhead]
  unfold serializeCmap
  have hbn : (" beginbfchar\n").data = (" beginbfchar").data ++ ['\n'] := rfl
  rw [hbn]
  simp [List.append_assoc]

theorem parseLinesF_cons_ok (line : List Char) (rest : List (List Char))
    (acc : Dict Nat Nat) (es : List (Nat × Nat)) (h : lineDelta line = .ok es) :
    parseLinesF (line :: rest) acc =
      parseLinesF rest (es.foldl (fun m p => dictInsert m p.1 p.2) acc) := by
  unfold parseLinesF
  rw [List.foldlM_cons, h]
  simp [Except.map, Bind.bind, Except.bind]

theorem parseLinesF_append_ok (l1 : List (List Char)) :
    ∀ (l2 : List (List Char)) (acc acc' : Dict Nat Nat),
      parseLinesF l1 acc = .ok acc' →
      parseLinesF (l1 ++ l2) acc = parseLinesF l2 acc' := by
  induction l1 with
  | nil =>
    intro l2 acc acc' h
    have : acc = acc' := by
      simpa [parseLinesF, List.foldlM, pure, Except.pure] using h
    subst this
    rfl
  | cons line rest ih =>
    intro l2 acc acc' h
    cases hld : lineDelta line with
    | error e =>
      exfalso
      unfold parseLinesF at h
      rw [List.foldlM_cons, hld] at h
      simp [Except.map, Bind.bind, Except.bind] at h
    | ok es =>
      rw [List.cons_append, parseLinesF_cons_ok _ _ _ _ hld]
      rw [parseLinesF_cons_ok _ _ _ _ hld] at h
      exact ih l2 _ acc' h

theorem parseLinesF_nil_delta (lines : List (List Char))
    (h : ∀ line ∈ lines, lineDelta line = .ok []) :
    ∀ acc, parseLinesF lines acc = .ok acc := by
  induction lines with
  | nil => intro acc; rfl
  | cons line rest ih =>
    intro acc
    rw [parseLinesF_cons_ok _ _ _ _ (h line (List.mem_cons_self _ _))]
    exact ih (fun l hl => h l (List.mem_cons_of_mem _ hl)) acc

theorem parseLinesF_entryLines (l : List (Nat × Nat)) :
    ∀ (acc : Dict Nat Nat), (∀ p ∈ l, p.1 ≤ 0xFF ∧ p.2 < 0x110000) →
      parseLinesF (l.map entryLine) acc =
        .ok (l.foldl (fun m p => dictInsert m p.1 p.2) acc) := by
  induction l with
  | nil => intro acc _; rfl
  | cons p rest ih =>
    intro acc h
    obtain ⟨h1, h2⟩ := h p (List.mem_cons_self _ _)
    rw [List.map_cons, parseLinesF_cons_ok _ _ _ _ (lineDelta_entryLine p h1 h2)]
    rw [ih _ (fun q hq => h q (List.mem_cons_of_mem _ hq))]
    rfl

theorem dictGet_foldl_insert_not_key (l : List (Nat × Nat)) :
    ∀ (acc : Dict Nat Nat) (k : Nat), k ∉ l.map Prod.fst →
      dictGet (l.foldl (fun m p => dictInsert m p.1 p.2) acc) k = dictGet acc k := by
  induction l with
  | nil => intro acc k _; rfl
  | cons p rest ih =>
    intro acc k hk
    simp only [List.map_cons, List.mem_cons, not_or] at hk
    rw [List.foldl_cons, ih _ _ (by simpa using hk.2), dictGet_insert]
    rw [if_neg hk.1]

theorem dictGet_foldl_insert_mem (l : List (Nat × Nat)) :
    ∀ (acc : Dict Nat Nat) (k v : Nat), (k, v) ∈ l → (l.map Prod.fst).Nodup →
      dictGet (l.foldl (fun m p => dictInsert m p.1 p.2) acc) k = some v := by
  induction l with
  | nil => intro acc k v h _; cases h
  | cons p rest ih =>
    intro acc k v hmem hnodup
    simp only [List.map_cons, List.nodup_cons] at hnodup
    rcases List.mem_cons.mp hmem with h | h
    · cases h
      rw [List.foldl_cons,
        dictGet_foldl_insert_not_key rest _ _ (by simpa using hnodup.1),
        dictGet_insert, if_pos rfl]
    · rw [List.foldl_cons]
      exact ih _ _ _ h hnodup.2

theorem dictGet_isSome_of_mem (m : Dict Nat Nat) (k v : Nat) (h : (k, v) ∈ m) :
    (dictGet m k).isSome = true := by
  induction m with
  | nil => cases h
  | cons p rest ih =>
    rcases List.mem_cons.mp h with h' | h'
    · cases h'; simp [dictGet]
    · by_cases hk : k = p.1
      · simp [dictGet, hk]
      · simpa [dictGet, hk] using ih h'

theorem insEntry_perm (p : Nat × Nat) (l : Dict Nat Nat) :
    (insEntry p l).Perm (p :: l) := by
  induction l with
  | nil => simp [insEntry]
  | cons q rest ih =>
    unfold insEntry
    split
    · exact List.Perm.refl _
    · exact (List.Perm.cons q ih).trans (List.Perm.swap p q rest)

theorem sortEntries_perm (m : Dict Nat Nat) : (sortEntries m).Perm m := by
  induction m with
  | nil => simp [sortEntries]
  | cons p rest ih =>
    unfold sortEntries at *
    rw [List.foldr_cons]
    exact (insEntry_perm p _).trans (List.Perm.cons p ih)

theorem serLines_no_break (m : Dict Nat Nat) :
    ∀ line ∈ serLines m, ∀ c ∈ line, isLineBreak c = false := by
  intro line hline
  unfold serLines at hline
  simp only [List.mem_append, List.mem_cons, List.mem_map, List.not_mem_nil,
    or_false] at hline
  have hhead : ∀ l ∈ cmapHeaderLines, ∀ c ∈ l, isLineBreak c = false := by decide
  rcases hline with ((h | rfl) | ⟨p, _, rfl⟩) | (rfl | rfl | rfl | rfl)
  · exact hhead line h
  · exact numline_no_break _
  · exact entryLine_no_break p
  · decide
  · decide
  · decide
  · decide

theorem pysplitlines_serializeCmap (m : Dict Nat Nat) :
    pysplitlines (serializeCmap m) = serLines m ++ [("end").data] := by
  rw [serialize_eq_serLines]
  unfold pysplitlines
  rw [pysplit_joinlines (serLines m) (serLines_no_break m) (("end").data)]
  rfl

set_option maxRecDepth 40000 in
theorem parseLinesF_header :
    parseLinesF cmapHeaderLines [] = .ok [(0x00, 0xFF)] := rfl

/-- **C4 (amended).** Reparsing the serialized ToUnicode CMap of a
byte-to-scalar mapping (single-byte codes, valid scalars, no duplicate codes)
yields every original entry unchanged — and exactly one extra entry,
`0x00 → U+00FF`, contributed by the `<00> <FF>` codespacerange line of the
serializer's fixed prologue, unless byte 0x00 was already mapped. -/
theorem cmap_serialize_reparse (m : Dict Nat Nat)
    (hnodup : (m.map Prod.fst).Nodup)
    (hk : ∀ p ∈ m, p.1 ≤ 0xFF) (hv : ∀ p ∈ m, p.2 < 0x110000) :
    ∃ m', parseCmapChars (serializeCmap m) = .ok m' ∧
      (∀ k v, dictGet m k = some v → dictGet m' k = some v) ∧
      (∀ k, dictGet m k = none → dictGet m' k = if k = 0 then some 0xFF else none) := by
  have hperm := sortEntries_perm m
  have hnodup' : ((sortEntries m).map Prod.fst).Nodup :=
    (List.Perm.nodup_iff (List.Perm.map Prod.fst hperm)).mpr hnodup
  have hpc : parseCmapChars (serializeCmap m) =
      parseLinesF (pysplitlines (serializeCmap m)) [] := rfl
  have hform : serLines m ++ [("end").data] =
      cmapHeaderLines ++
        ([decDigits (sortEntries m).length ++ (" beginbfchar").data] ++
          ((sortEntries m).map entryLine ++
            ([("endbfchar").data, ("endcmap").data,
              ("CMapName currentdict /CMap defineresource pop").data, ("end").data] ++
              [("end").data]))) := by
    unfold serLines
    simp [List.append_assoc]
  have hmid : parseLinesF
      ([decDigits (sortEntries m).length ++ (" beginbfchar").data] ++
        ((sortEntries m).map entryLine ++
          ([("endbfchar").data, ("endcmap").data,
            ("CMapName currentdict /CMap defineresource pop").data, ("end").data] ++
            [("end").data]))) [(0x00, 0xFF)] =
      .ok ((sortEntries m).foldl (fun m p => dictInsert m p.1 p.2) [(0x00, 0xFF)]) := by
    rw [List.singleton_append, parseLinesF_cons_ok _ _ _ _ (lineDelta_numline _)]
    rw [parseLinesF_append_ok ((sortEntries m).map entryLine) _ _ _
      (parseLinesF_entryLines (sortEntries m) _
        (fun p hp => ⟨hk p (hperm.mem_iff.mp hp), hv p (hperm.mem_iff.mp hp)⟩))]
    refine parseLinesF_nil_delta _ ?_ _
    intro line hl
    simp only [List.mem_append, List.mem_cons, List.not_mem_nil, or_false] at hl
    rcases hl with (rfl | rfl | rfl | rfl) | rfl <;> rfl
  have hparse : parseCmapChars (serializeCmap m) =
      .ok ((sortEntries m).foldl (fun m p => dictInsert m p.1 p.2) [(0x00, 0xFF)]) := by
    rw [hpc, pysplitlines_serializeCmap, hform,
      parseLinesF_append_ok cmapHeaderLines _ _ _ parseLinesF_header, hmid]
  refine ⟨_, hparse, ?_, ?_⟩
  · intro k v hkv
    exact dictGet_foldl_insert_mem (sortEntries m) _ k v
      (hperm.mem_iff.mpr (mem_of_dictGet m k v hkv)) hnodup'
  · intro k hnone
    have hnk : k ∉ (sortEntries m).map Prod.fst := by
      intro hkmem
      obtain ⟨p, hp, hp1⟩ := List.mem_map.mp hkmem
      have : (k, p.2) ∈ m := by
        have := hperm.mem_iff.mp hp
        obtain ⟨p1, p2⟩ := p
        cases hp1
        exact this
      have := dictGet_isSome_of_mem m k p.2 this
      rw [hnone] at this
      cases this
    rw [dictGet_foldl_insert_not_key (sortEntries m) _ k hnk]
    by_cases hk0 : k = 0
    · subst hk0; simp [dictGet]
    · simp [dictGet, hk0]

set_option maxRecDepth 200000 in
/-- Counterexample to C4 as stated: serializing the one-entry mapping
`0x41 → U+0041` and reparsing does not return the same mapping — the
reparsed dictionary has gained the entry `0x00 → U+00FF` (parsed from the
serializer's own `<00> <FF>` codespacerange line). -/
theorem serialize_reparse_counterexample :
    parseCmapChars (serializeCmap [(0x41, 0x41)]) =
      .ok [(0x00, 0xFF), (0x41, 0x41)] ∧
    dictGet [(0x41, 0x41)] 0x00 = none := by
  constructor
  · rfl
  · decide

/-- Witness for C4 (amended) at a concrete two-entry mapping. -/
theorem cmap_serialize_reparse_witness :
    ((([(0x01, 0x58), (0x02, 0x59)] : Dict Nat Nat).map Prod.fst).Nodup ∧
      (∀ p ∈ ([(0x01, 0x58), (0x02, 0x59)] : Dict Nat Nat), p.1 ≤ 0xFF) ∧
      (∀ p ∈ ([(0x01, 0x58), (0x02, 0x59)] : Dict Nat Nat), p.2 < 0x110000)) ∧
    ∃ m', parseCmapChars (serializeCmap [(0x01, 0x58), (0x02, 0x59)]) = .ok m' ∧
      (∀ k v, dictGet [(0x01, 0x58), (0x02, 0x59)] k = some v → dictGet m' k = some v) ∧
      (∀ k, dictGet [(0x01, 0x58), (0x02, 0x59)] k = none →
        dictGet m' k = if k = 0 then some 0xFF else none) :=
  ⟨⟨by decide, by decide, by decide⟩,
   cmap_serialize_reparse [(0x01, 0x58), (0x02, 0x59)] (by decide) (by decide) (by decide)⟩

end PdfParser
